import Mathlib

/-!
Shallow embedding of the extraction pipeline and of the transcription
rate/retry gate of src/index.js (whatsapp-ai-agent), together with proofs
about the claims of the specification.

Strings are modelled as lists of characters.  JavaScript regular
expression matching is embedded as explicit scanners with the standard
backtracking semantics (leftmost match, lazy and greedy quantifiers, word
boundaries over the ASCII word-character class).  Where a greedy or lazy
quantifier is deterministic on the inputs the function receives, the
scanner implements the deterministic form and the justification is noted
next to it.
-/

/-- Strings of the embedded program: lists of characters. -/
abbrev Str := List Char

/-- Literal conversion helper for writing embedded string constants. -/
def str (s : String) : Str := s.toList

/-- Whitespace test of the regex class backslash-s of JavaScript: space,
    tab, line feed, carriage return, vertical tab, form feed and no-break
    space.  The rarer Unicode space code points never occur in the text
    this system processes and are omitted. -/
def jsIsSpace (c : Char) : Bool :=
  c == ' ' || c == '\t' || c == '\n' || c == '\r' || c == '\x0b' || c == '\x0c' || c == ' '

/-- Word-character test of the regex metacharacter backslash-w, which also
    defines word boundaries: ASCII letters, ASCII digits and underscore.
    Accented letters are not word characters in JavaScript regexes. -/
def isWordChar (c : Char) : Bool :=
  decide (('a' ≤ c ∧ c ≤ 'z') ∨ ('A' ≤ c ∧ c ≤ 'Z') ∨ ('0' ≤ c ∧ c ≤ '9') ∨ c = '_')

/-- Decimal digit test, the regex class backslash-d. -/
def isDigitChar (c : Char) : Bool :=
  decide ('0' ≤ c ∧ c ≤ '9')

/-- Lower-casing as performed by toLowerCase on the characters this system
    processes: ASCII A-Z and the Latin-1 uppercase letters, which cover the
    accented French letters.  Other code points are left unchanged. -/
def jsToLower (c : Char) : Char :=
  if ('A' ≤ c ∧ c ≤ 'Z') then Char.ofNat (c.toNat + 32)
  else if ('À' ≤ c ∧ c ≤ 'Þ' ∧ c ≠ '×') then Char.ofNat (c.toNat + 32)
  else c

/-- Numeric value of a decimal digit character. -/
def digitVal (c : Char) : Nat := c.toNat - '0'.toNat

/-- Value of a list of decimal digit characters. -/
def digitsToNat (ds : Str) : Nat := ds.foldl (fun acc c => acc * 10 + digitVal c) 0

/-- parseInt(s, 10): the value of the maximal run of leading decimal
    digits.  Every call site in the source feeds parseInt a digit-leading
    piece, so sign and leading-whitespace handling are not modelled; a
    piece with no leading digit gives NaN, modelled as none. -/
def jsParseInt (s : Str) : Option Nat :=
  match s.takeWhile isDigitChar with
  | [] => none
  | ds => some (digitsToNat ds)

/-- Decimal digit character of a value below ten. -/
def digitChar (k : Nat) : Char :=
  if k = 0 then '0' else if k = 1 then '1' else if k = 2 then '2' else if k = 3 then '3'
  else if k = 4 then '4' else if k = 5 then '5' else if k = 6 then '6' else if k = 7 then '7'
  else if k = 8 then '8' else '9'

/-- Worker of natToStr with explicit fuel, at least one unit per digit. -/
def natToStrGo : Nat → Nat → Str
  | 0, _ => []
  | fuel + 1, n =>
    if n < 10 then [digitChar n] else natToStrGo fuel (n / 10) ++ [digitChar (n % 10)]

/-- Decimal rendering of a natural number, String(n). -/
def natToStr (n : Nat) : Str := natToStrGo (n + 1) n

/-- String(n).padStart(2, zero): the pad2 helper of the source. -/
def pad2 (n : Nat) : Str :=
  let s := natToStr n
  if s.length < 2 then '0' :: s else s

/-- Template interpolation of a destructured array slot: a missing slot is
    undefined and prints as the text undefined, a slot whose parseInt was
    NaN prints as the text NaN, a numeric slot prints in decimal. -/
def slotStr : Option (Option Nat) → Str
  | none => str "undefined"
  | some none => str "NaN"
  | some (some n) => natToStr n

/-- pad2 applied to a destructured array slot: String of undefined or NaN
    is at least two characters long, so padStart leaves it unchanged. -/
def slotPad2 : Option (Option Nat) → Str
  | none => str "undefined"
  | some none => str "NaN"
  | some (some n) => pad2 n

/-- String.prototype.trim restricted to the whitespace set above. -/
def jsTrim (s : Str) : Str :=
  ((s.dropWhile jsIsSpace).reverse.dropWhile jsIsSpace).reverse

/-- Worker of collapseWs: the flag records whether the previous character
    was part of a whitespace run already replaced by one space. -/
def collapseWsGo : Bool → Str → Str
  | _, [] => []
  | inRun, c :: rest =>
    if jsIsSpace c then
      if inRun then collapseWsGo true rest else ' ' :: collapseWsGo true rest
    else c :: collapseWsGo false rest

/-- Global replacement of every whitespace run by a single space. -/
def collapseWs (s : Str) : Str := collapseWsGo false s

/-- normKeepAccents of the source: lower-case, NFKC-normalize, collapse
    whitespace runs to one space, trim.  NFKC normalization is the
    identity on the NFC Latin text this pipeline receives and is modelled
    as the identity. -/
def normKeepAccents (s : Str) : Str := jsTrim (collapseWs (s.map jsToLower))

/-- Global replacement of the pattern whitespace, letter l, letter e,
    whitespace-run by a single space, applied in parseFrenchDatePhrase.
    The input has already been whitespace-collapsed by normKeepAccents, so
    every whitespace run has length one and the greedy trailing run of the
    pattern is exactly the single space following the two letters.  As
    with a global regex replacement, scanning resumes after the replaced
    portion. -/
def replaceLeGo : Str → Str
  | [] => []
  | c :: 'l' :: 'e' :: d :: r3 =>
    if jsIsSpace c ∧ jsIsSpace d then ' ' :: replaceLeGo r3
    else c :: replaceLeGo ('l' :: 'e' :: d :: r3)
  | c :: rest => c :: replaceLeGo rest

/-- String.prototype.includes: substring occurrence test. -/
def jsIncludes : Str → Str → Bool
  | [], sub => sub.isEmpty
  | c :: rest, sub => sub.isPrefixOf (c :: rest) || jsIncludes rest sub

/-- Worker of splitOnChar with an accumulator for the current piece. -/
def splitOnCharGo (sep : Char) : Str → Str → List Str
  | acc, [] => [acc.reverse]
  | acc, c :: rest =>
    if c == sep then acc.reverse :: splitOnCharGo sep [] rest
    else splitOnCharGo sep (c :: acc) rest

/-- String.prototype.split at a single-character separator. -/
def splitOnChar (sep : Char) (s : Str) : List Str := splitOnCharGo sep [] s

/-- Deletion of whitespace and hyphens, the replacement of the class
    whitespace-or-hyphen by the empty string. -/
def stripSpaceDash (s : Str) : Str := s.filter (fun c => !(jsIsSpace c || c == '-'))

/-- Case-insensitive literal prefix test; the pattern is lower case. -/
def startsWithCI : Str → Str → Bool
  | _, [] => true
  | [], _ :: _ => false
  | c :: s, p :: ps => (jsToLower c == p) && startsWithCI s ps

/-- Case-insensitive literal consumption: the matched actual characters
    and the remainder. -/
def takeLitCI (pat : Str) (s : Str) : Option (Str × Str) :=
  if startsWithCI s pat then some (s.take pat.length, s.drop pat.length) else none

/-- First successful application of a partial function along a list, the
    semantics of a regex alternation with full backtracking. -/
def firstSome {α β : Type} (f : α → Option β) : List α → Option β
  | [] => none
  | a :: rest =>
    match f a with
    | some b => some b
    | none => firstSome f rest

/-- FR_MONTHS table of the source: month names, accented variants
    included, with their numbers. -/
def frMonthsTable : List (Str × Nat) :=
  [(str "janvier", 1), (str "fevrier", 2), (str "février", 2), (str "mars", 3),
   (str "avril", 4), (str "mai", 5), (str "juin", 6), (str "juillet", 7),
   (str "aout", 8), (str "août", 8), (str "septembre", 9), (str "octobre", 10),
   (str "novembre", 11), (str "decembre", 12), (str "décembre", 12)]

/-- Value of a property read on the FR_MONTHS object literal.  Bracket
    access follows the prototype chain: besides the own month entries, the
    object inherits properties from the object prototype, and the one
    inherited property name made only of lower-case letters is
    constructor, whose value is the truthy Object constructor function.
    Every other inherited name contains an upper-case letter or an
    underscore, so it can never be produced by the lower-cased month-word
    alphabet this lookup receives. -/
inductive FrMonthValue
  | num (n : Nat)
  | protoConstructor
deriving DecidableEq

/-- Property lookup in the FR_MONTHS object: the value under an own key,
    else the inherited constructor function under the key constructor,
    else undefined. -/
def frMonthsLookup (w : Str) : Option FrMonthValue :=
  match frMonthsTable.find? (fun p => p.1 == w) with
  | some p => some (FrMonthValue.num p.2)
  | none =>
    if w = str "constructor" then some FrMonthValue.protoConstructor else none

/-- String(mo).padStart(2, zero) applied to the value read from
    FR_MONTHS: a month number pads to at least two digits; the inherited
    constructor function stringifies (in the V8 rendering) to its native
    source text, which is longer than two characters and is left
    unchanged by padStart. -/
def frMonthPad2 : FrMonthValue → Str
  | .num n => pad2 n
  | .protoConstructor => str "function Object() \x7b [native code] \x7d"

/-- Anchored test for the canonical form: four digits, hyphen, two digits,
    hyphen, two digits. -/
def isCanonicalYmd (s : Str) : Bool :=
  match s with
  | [a, b, c, d, h1, e2, f2, h2, g2, k2] =>
    isDigitChar a && isDigitChar b && isDigitChar c && isDigitChar d &&
    h1 == '-' && isDigitChar e2 && isDigitChar f2 &&
    h2 == '-' && isDigitChar g2 && isDigitChar k2
  | _ => false

/-- Separator class of the numeric date forms: slash or hyphen. -/
def isSepChar (c : Char) : Bool := c == '/' || c == '-'

/-- Anchored test for the numeric form: one or two digits, separator, one
    or two digits, separator, two to four digits.  A greedy bounded digit
    quantifier followed by a non-digit position matches exactly the
    maximal digit run when the run fits the bound and fails otherwise, so
    the test reads off maximal runs. -/
def isNumericDateToken (s : Str) : Bool :=
  let r1 := s.takeWhile isDigitChar
  match s.dropWhile isDigitChar with
  | c1 :: s1 =>
    let r2 := s1.takeWhile isDigitChar
    (match s1.dropWhile isDigitChar with
     | c2 :: s2 =>
       let r3 := s2.takeWhile isDigitChar
       decide (1 ≤ r1.length ∧ r1.length ≤ 2) && isSepChar c1 &&
       decide (1 ≤ r2.length ∧ r2.length ≤ 2) && isSepChar c2 &&
       decide (2 ≤ r3.length ∧ r3.length ≤ 4) && decide (s2.dropWhile isDigitChar = [])
     | [] => false)
  | [] => false

/-- Numeric-form conversion of parseFrenchDatePhrase, source lines
    148 to 153: pick the separator (slash wins when present anywhere),
    split, parseInt each piece, add 2000 to a two-digit year, and render
    year, padded month, padded day. -/
def parseNumericDate (s : Str) : Str :=
  let sep := if s.contains '/' then '/' else '-'
  let pieces := (splitOnChar sep s).map jsParseInt
  let d := pieces.get? 0
  let m := pieces.get? 1
  let y0 := pieces.get? 2
  let y : Option (Option Nat) :=
    match y0 with
    | some (some v) => some (some (if v < 100 then v + 2000 else v))
    | other => other
  slotStr y ++ [ '-' ] ++ slotPad2 m ++ [ '-' ] ++ slotPad2 d

/-- Month-name character class of the textual date form, case-insensitive:
    the letters a to z and the accented letters the source lists. -/
def monthClassChar (c : Char) : Bool :=
  let lc := jsToLower c
  decide ('a' ≤ lc ∧ lc ≤ 'z') || lc == 'é' || lc == 'û' || lc == 'ô' ||
  lc == 'î' || lc == 'ù' || lc == 'à' || lc == 'â' || lc == 'ç'

/-- Word-boundary test right after a word character: the next character is
    absent or is not a word character. -/
def boundaryAfterWord : Str → Bool
  | [] => true
  | c :: _ => !isWordChar c

/-- Candidate matches for the first group of the textual date form, in
    backtracking order: the literal 1er, the literal premier, then the
    greedy one-or-two-digit run (two digits tried before one). -/
def group1Candidates (s : Str) : List (Str × Str) :=
  (if startsWithCI s (str "1er") then [(s.take 3, s.drop 3)] else []) ++
  (if startsWithCI s (str "premier") then [(s.take 7, s.drop 7)] else []) ++
  (let ds := s.takeWhile isDigitChar
   if ds.length ≥ 2 then [(s.take 2, s.drop 2), (s.take 1, s.drop 1)]
   else if ds.length = 1 then [(s.take 1, s.drop 1)] else [])

/-- Continuation of the textual date match after its first group: one or
    more spaces, a month-class run, one or more spaces, exactly four
    digits, word boundary.  Each greedy run is deterministic because no
    adjacent piece can absorb its characters.  Returns the whole matched
    text and the three groups. -/
def textualTail (g1 rest : Str) : Option (Str × Str × Str × Str) :=
  let sp1 := rest.takeWhile jsIsSpace
  let r1 := rest.dropWhile jsIsSpace
  if sp1 = [] then none else
  let mon := r1.takeWhile monthClassChar
  let r2 := r1.dropWhile monthClassChar
  if mon = [] then none else
  let sp2 := r2.takeWhile jsIsSpace
  let r3 := r2.dropWhile jsIsSpace
  if sp2 = [] then none else
  let ds := r3.takeWhile isDigitChar
  let r4 := r3.dropWhile isDigitChar
  if ds.length = 4 ∧ boundaryAfterWord r4 = true then
    some (g1 ++ sp1 ++ mon ++ sp2 ++ ds, g1, mon, ds)
  else none

/-- Match of the textual date form at the current position.  All the
    first-group alternatives begin with a word character, so the leading
    word boundary requires the previous character to not be a word
    character. -/
def matchTextualAt (prevWord : Bool) (s : Str) : Option (Str × Str × Str × Str) :=
  if prevWord then none
  else firstSome (fun gr => textualTail gr.1 gr.2) (group1Candidates s)

/-- Leftmost match of the textual date form: the scanner advances one
    character at a time, remembering the word status of the previous
    character for the boundary test. -/
def scanTextual : Bool → Str → Option (Str × Str × Str × Str)
  | _, [] => none
  | prevWord, c :: rest =>
    match matchTextualAt prevWord (c :: rest) with
    | some r => some r
    | none => scanTextual (isWordChar c) rest

/-- parseFrenchDatePhrase of the source: empty input is falsy and gives
    null; otherwise normalize, erase infix le words, trim, then try the
    canonical form, the numeric form, and the textual form in order. -/
def parseFrenchDatePhrase (fr : Str) : Option Str :=
  if fr = [] then none else
  let s := jsTrim (replaceLeGo (normKeepAccents fr))
  if isCanonicalYmd s then some s
  else if isNumericDateToken s then some (parseNumericDate s)
  else
    match scanTextual false s with
    | some (_, g1, mon, yds) =>
      let dRaw := g1.map jsToLower
      let dStr := if dRaw = str "1er" ∨ dRaw = str "premier" then str "1" else dRaw
      match frMonthsLookup (mon.map jsToLower) with
      | some mv =>
        some (slotStr (some (jsParseInt yds)) ++ [ '-' ] ++ frMonthPad2 mv ++ [ '-' ] ++
              slotPad2 (some (jsParseInt dStr)))
      | none => none
    | none => none

/-- Intent values of the structured query. -/
inductive Intent
  | entrees
  | sorties
  | stock
deriving DecidableEq

/-- Gaine identifier of the structured query.  The source always pairs the
    value with the constant tag prefix, which carries no information and
    is not modelled. -/
structure Gaine where
  value : Str
deriving DecidableEq

/-- Time part of the structured query: unspecified, a single day, or an
    inclusive range. -/
inductive TimeSpec
  | unspecified
  | date (d : Str)
  | range (dFrom dTo : Str)
deriving DecidableEq

/-- StructuredQuery of the data model: intent and gaine may each be
    absent. -/
structure StructuredQuery where
  intent : Option Intent
  gaine : Option Gaine
  time : TimeSpec
deriving DecidableEq

/-- Match of one intent keyword alternative: a case-insensitive literal
    stem, an optional trailing letter s (greedy, so the form with s is
    tried first), then a word boundary.  Without the optional s the
    boundary sits before the next character; with it, after the s. -/
def matchOptS (stem : Str) (s : Str) : Option Str :=
  match takeLitCI stem s with
  | none => none
  | some (a, r1) =>
    match r1 with
    | c :: r2 =>
      if jsToLower c == 's' then
        if boundaryAfterWord r2 then some (a ++ [c]) else none
      else if boundaryAfterWord r1 then some a else none
    | [] => some a

/-- Match of the alternative for entries: the letters e n t r, one of the
    characters e-acute or e, the letter e, an optional s, then a word
    boundary. -/
def matchEntrWord (s : Str) : Option Str :=
  match takeLitCI (str "entr") s with
  | none => none
  | some (a, r1) =>
    match r1 with
    | c :: r2 =>
      if jsToLower c == 'é' || jsToLower c == 'e' then
        match matchOptS (str "e") r2 with
        | some b => some (a ++ [c] ++ b)
        | none => none
      else none
    | [] => none

/-- Match of the full intent keyword group at the current position, in
    alternation order: the entries form, the exits form (the literal
    sortie with optional s), the literal stock. -/
def intentWordMatch (s : Str) : Option Str :=
  match matchEntrWord s with
  | some g => some g
  | none =>
    match matchOptS (str "sortie") s with
    | some g => some g
    | none =>
      match takeLitCI (str "stock") s with
      | some (a, r) => if boundaryAfterWord r then some a else none
      | none => none

/-- Match of the intent anchor at the current position: word boundary, the
    literal les, one or more spaces, then the keyword group.  The greedy
    space run is deterministic because no keyword begins with a space. -/
def matchIntentAt (prevWord : Bool) (s : Str) : Option Str :=
  if prevWord then none else
  match takeLitCI (str "les") s with
  | none => none
  | some (_, r) =>
    let sp := r.takeWhile jsIsSpace
    let r1 := r.dropWhile jsIsSpace
    if sp = [] then none else intentWordMatch r1

/-- Leftmost match of the intent anchor. -/
def scanIntent : Bool → Str → Option Str
  | _, [] => none
  | prevWord, c :: rest =>
    match matchIntentAt prevWord (c :: rest) with
    | some g => some g
    | none => scanIntent (isWordChar c) rest

/-- Mapping from the matched keyword (already lower-cased) to the intent
    value, by stem tests in source order. -/
def intentOfKeyword (kw : Str) : Intent :=
  if (str "entr").isPrefixOf kw then .entrees
  else if (str "sort").isPrefixOf kw then .sorties
  else .stock

/-- Tail of both gaine patterns after the prefix letters: an optional
    space run, an optional hyphen, an optional space run, one to five
    digits, word boundary.  Each greedy piece is deterministic: spaces
    cannot be absorbed by the hyphen or the digits and a digit run longer
    than five leaves a digit after every shorter split, failing the
    boundary.  Returns the middle separator characters and the digit
    run.  dashSplit reads the optional hyphen: the consumed hyphen, if
    any, and the remainder. -/
def dashSplit : Str → Str × Str
  | c :: rr => if c == '-' then ([c], rr) else ([], c :: rr)
  | [] => ([], [])

/-- Remainder of both gaine patterns after the prefix letters: the
    optional space run, the optional hyphen through dashSplit, another
    optional space run, then one to five digits up to a word boundary. -/
def tailSepDigits (s : Str) : Option (Str × Str) :=
  let sp1 := s.takeWhile jsIsSpace
  let r1 := s.dropWhile jsIsSpace
  let sp2 := (dashSplit r1).2.takeWhile jsIsSpace
  let r3 := (dashSplit r1).2.dropWhile jsIsSpace
  let ds := r3.takeWhile isDigitChar
  let r4 := r3.dropWhile isDigitChar
  if (1 ≤ ds.length ∧ ds.length ≤ 5) ∧ boundaryAfterWord r4 = true then
    some (sp1 ++ (dashSplit r1).1 ++ sp2, ds)
  else none

/-- Prefix alternatives of the anchored gaine group, in source order. -/
def gainePrefixes : List Str := [str "gsb", str "gab", str "gl", str "gs"]

/-- Match of the gaine group of the anchor pattern at the current
    position: one prefix alternative then the separator-digits tail.
    Returns the whole captured text. -/
def matchGaineBody (s : Str) : Option Str :=
  firstSome
    (fun p =>
      match takeLitCI p s with
      | none => none
      | some (a, r) =>
        match tailSepDigits r with
        | some (mid, ds) => some (a ++ mid ++ ds)
        | none => none)
    gainePrefixes

/-- Match of the gaine anchor at the current position: word boundary, the
    literal de, one or more spaces, the gaine group. -/
def matchGaineAt (prevWord : Bool) (s : Str) : Option Str :=
  if prevWord then none else
  match takeLitCI (str "de") s with
  | none => none
  | some (_, r) =>
    let sp := r.takeWhile jsIsSpace
    let r1 := r.dropWhile jsIsSpace
    if sp = [] then none else matchGaineBody r1

/-- Leftmost match of the gaine anchor. -/
def scanGaine : Bool → Str → Option Str
  | _, [] => none
  | prevWord, c :: rest =>
    match matchGaineAt prevWord (c :: rest) with
    | some g => some g
    | none => scanGaine (isWordChar c) rest

/-- Characters matched by the regex dot: anything but a line terminator. -/
def isDotChar (c : Char) : Bool :=
  !(c == '\n' || c == '\r' || c == ' ' || c == ' ')

/-- Lazy second group of the range pattern: the shortest nonempty run of
    dot characters whose end sits at a word boundary, that is, the first
    position after the start where the word status changes, or the end of
    the string if the last character is a word character. -/
def lazyGroupTwoGo (acc : Str) (last : Char) : Str → Option Str
  | [] => if isWordChar last then some acc.reverse else none
  | d :: rest =>
    if isWordChar last ≠ isWordChar d then some acc.reverse
    else if isDotChar d then lazyGroupTwoGo (d :: acc) d rest
    else none

/-- Entry point of the lazy second group: it must contain at least one
    character. -/
def lazyGroupTwo : Str → Option Str
  | [] => none
  | c :: rest => if isDotChar c then lazyGroupTwoGo [c] c rest else none

/-- Continuation of the range pattern after the first group: one or more
    spaces, the literal au, one or more spaces, then the lazy second
    group. -/
def matchAuThenG2 (s : Str) : Option Str :=
  let sp := s.takeWhile jsIsSpace
  let r1 := s.dropWhile jsIsSpace
  if sp = [] then none else
  match takeLitCI (str "au") r1 with
  | none => none
  | some (_, r2) =>
    let sp2 := r2.takeWhile jsIsSpace
    let r3 := r2.dropWhile jsIsSpace
    if sp2 = [] then none else lazyGroupTwo r3

/-- Lazy first group of the range pattern: dot characters are added one at
    a time, and after each addition the continuation is tried, so the
    shortest first group that lets the rest of the pattern match wins. -/
def tryRangeG1 (acc : Str) : Str → Option (Str × Str)
  | [] => none
  | c :: rest =>
    if isDotChar c then
      match matchAuThenG2 rest with
      | some g2 => some ((c :: acc).reverse, g2)
      | none => tryRangeG1 (c :: acc) rest
    else none

/-- Match of the range anchor at the current position: word boundary, the
    literal du, one or more spaces, then the two lazy groups. -/
def matchRangeAt (prevWord : Bool) (s : Str) : Option (Str × Str) :=
  if prevWord then none else
  match takeLitCI (str "du") s with
  | none => none
  | some (_, r) =>
    let sp := r.takeWhile jsIsSpace
    let r1 := r.dropWhile jsIsSpace
    if sp = [] then none else tryRangeG1 [] r1

/-- Leftmost match of the range anchor. -/
def scanRange : Bool → Str → Option (Str × Str)
  | _, [] => none
  | prevWord, c :: rest =>
    match matchRangeAt prevWord (c :: rest) with
    | some g => some g
    | none => scanRange (isWordChar c) rest

/-- Match of the single-date anchor at the current position: word
    boundary, the literal le, one or more spaces, then a lazy group
    stretched to the end anchor, which makes it the whole remainder; the
    remainder must be nonempty and free of line terminators. -/
def matchSingleAt (prevWord : Bool) (s : Str) : Option Str :=
  if prevWord then none else
  match takeLitCI (str "le") s with
  | none => none
  | some (_, r) =>
    let sp := r.takeWhile jsIsSpace
    let r1 := r.dropWhile jsIsSpace
    if sp = [] then none else
    if r1 = [] then none else
    if r1.all isDotChar then some r1 else none

/-- Leftmost match of the single-date anchor. -/
def scanSingle : Bool → Str → Option Str
  | _, [] => none
  | prevWord, c :: rest =>
    match matchSingleAt prevWord (c :: rest) with
    | some g => some g
    | none => scanSingle (isWordChar c) rest

/-- Time block of extractByAnchors on the normalized text: the range
    anchor first, and only when it finds nothing, the single-date anchor;
    a range is kept only when both sides resolve, a single date only when
    it resolves. -/
def anchorsTime (t : Str) : TimeSpec :=
  match scanRange false t with
  | some (a, b) =>
    (match parseFrenchDatePhrase a, parseFrenchDatePhrase b with
     | some d1, some d2 => .range d1 d2
     | _, _ => .unspecified)
  | none =>
    match scanSingle false t with
    | some x =>
      (match parseFrenchDatePhrase x with
       | some d => .date d
       | none => .unspecified)
    | none => .unspecified

/-- extractByAnchors of the source: normalize, read the intent anchor, the
    gaine anchor, then the time anchor, and return a structured query only
    when both intent and gaine were found. -/
def extractByAnchors (text : Str) : Option StructuredQuery :=
  let t := normKeepAccents text
  let intent : Option Intent :=
    match scanIntent false t with
    | some kw => some (intentOfKeyword (kw.map jsToLower))
    | none => none
  let gaine : Option Gaine :=
    match scanGaine false t with
    | some cap => some ⟨stripSpaceDash (cap.map jsToLower)⟩
    | none => none
  match intent, gaine with
  | some i, some g => some ⟨some i, some g, anchorsTime t⟩
  | _, _ => none

/-- detectIntent of the fallback extractor: substring stem tests on the
    normalized text, in priority order. -/
def detectIntent (t : Str) : Option Intent :=
  let low := normKeepAccents t
  if jsIncludes low (str "entr") then some .entrees
  else if jsIncludes low (str "sort") then some .sorties
  else if jsIncludes low (str "stock") then some .stock
  else none

/-- Prefix alternatives of the fallback gaine pattern in backtracking
    order: the optional-b group greedily tries gsb before gs, then the
    remaining alternatives follow in source order. -/
def fallbackGainePrefixes : List Str :=
  [str "gsb", str "gs", str "gab", str "gl", str "gs"]

/-- Match of the fallback gaine pattern at the current position: word
    boundary, a prefix alternative, the separator-digits tail.  Its two
    groups are the prefix letters and the digits. -/
def matchFallbackGaineAt (prevWord : Bool) (s : Str) : Option (Str × Str) :=
  if prevWord then none else
  firstSome
    (fun p =>
      match takeLitCI p s with
      | none => none
      | some (a, r) =>
        match tailSepDigits r with
        | some (_, ds) => some (a, ds)
        | none => none)
    fallbackGainePrefixes

/-- Leftmost match of the fallback gaine pattern. -/
def scanFallbackGaine : Bool → Str → Option (Str × Str)
  | _, [] => none
  | prevWord, c :: rest =>
    match matchFallbackGaineAt prevWord (c :: rest) with
    | some g => some g
    | none => scanFallbackGaine (isWordChar c) rest

/-- extractGaine of the fallback extractor: the raw, unnormalized text is
    scanned case-insensitively and the value is the lower-cased prefix
    group followed by the digit group. -/
def extractGaine (t : Str) : Option Gaine :=
  match scanFallbackGaine false t with
  | some (p, ds) => some ⟨p.map jsToLower ++ ds⟩
  | none => none

/-- Match of the canonical alternative of the date token pattern at the
    current position: four digits, hyphen, two digits, hyphen, two digits,
    then a word boundary.  Greedy bounded digit runs next to non-digit
    requirements force each run to be exactly its written length. -/
def matchYmdToken (s : Str) : Option Str :=
  let r1 := s.takeWhile isDigitChar
  match s.dropWhile isDigitChar with
  | '-' :: s1 =>
    let r2 := s1.takeWhile isDigitChar
    (match s1.dropWhile isDigitChar with
     | '-' :: s2 =>
       let r3 := s2.takeWhile isDigitChar
       let r4 := s2.dropWhile isDigitChar
       if (r1.length = 4 ∧ r2.length = 2 ∧ r3.length = 2) ∧ boundaryAfterWord r4 = true then
         some (r1 ++ [ '-' ] ++ r2 ++ [ '-' ] ++ r3)
       else none
     | _ => none)
  | _ => none

/-- Match of the numeric alternative of the date token pattern at the
    current position: one or two digits, separator, one or two digits,
    separator, two to four digits, then a word boundary. -/
def matchDmyToken (s : Str) : Option Str :=
  let r1 := s.takeWhile isDigitChar
  match s.dropWhile isDigitChar with
  | c1 :: s1 =>
    if isSepChar c1 then
      let r2 := s1.takeWhile isDigitChar
      match s1.dropWhile isDigitChar with
      | c2 :: s2 =>
        if isSepChar c2 then
          let r3 := s2.takeWhile isDigitChar
          let r4 := s2.dropWhile isDigitChar
          if ((1 ≤ r1.length ∧ r1.length ≤ 2) ∧ (1 ≤ r2.length ∧ r2.length ≤ 2) ∧
              (2 ≤ r3.length ∧ r3.length ≤ 4)) ∧ boundaryAfterWord r4 = true then
            some (r1 ++ [c1] ++ r2 ++ [c2] ++ r3)
          else none
        else none
      | [] => none
    else none
  | [] => none

/-- Match of the date token pattern at the current position, canonical
    alternative first. -/
def matchDateTokenAt (prevWord : Bool) (s : Str) : Option Str :=
  if prevWord then none else
  match matchYmdToken s with
  | some tok => some tok
  | none => matchDmyToken s

/-- Leftmost date token of the text; the source collects all matches and
    uses only the first one. -/
def scanDateToken : Bool → Str → Option Str
  | _, [] => none
  | prevWord, c :: rest =>
    match matchDateTokenAt prevWord (c :: rest) with
    | some tok => some tok
    | none => scanDateToken (isWordChar c) rest

/-- Numeric-token conversion duplicated inline in extractTime, source
    lines 231 to 235: the same separator choice, split, parseInt, year
    adjustment and rendering as the numeric branch of
    parseFrenchDatePhrase. -/
def fallbackNumericDate (s : Str) : Str :=
  let sep := if s.contains '/' then '/' else '-'
  let pieces := (splitOnChar sep s).map jsParseInt
  let d := pieces.get? 0
  let m := pieces.get? 1
  let y0 := pieces.get? 2
  let y : Option (Option Nat) :=
    match y0 with
    | some (some v) => some (some (if v < 100 then v + 2000 else v))
    | other => other
  slotStr y ++ [ '-' ] ++ slotPad2 m ++ [ '-' ] ++ slotPad2 d

/-- Date-token part of extractTime: the first date token, converted inline
    when it is numeric and returned verbatim when it is canonical. -/
def extractTimeTokens (t : Str) : TimeSpec :=
  match scanDateToken false t with
  | some tok =>
    if isNumericDateToken tok then .date (fallbackNumericDate tok)
    else .date tok
  | none => .unspecified

/-- extractTime of the fallback extractor: a textual date phrase is tried
    first on the raw text and resolved through parseFrenchDatePhrase;
    when that fails, the first date token is used. -/
def extractTime (t : Str) : TimeSpec :=
  match scanTextual false t with
  | some (m0, _, _, _) =>
    (match parseFrenchDatePhrase m0 with
     | some d => .date d
     | none => extractTimeTokens t)
  | none => extractTimeTokens t

/-- Truthiness of a JavaScript string value: undefined and the empty
    string are falsy. -/
def jsTruthyStr (o : Option Str) : Option Str :=
  match o with
  | some s => if s = [] then none else some s
  | none => none

/-- Short-circuit or of two string values, as in the expression reading
    the date field with the single field as fallback. -/
def jsOrStr (a b : Option Str) : Option Str :=
  match a with
  | some s => if s = [] then b else some s
  | none => b

/-- normalizeGaineValue of the source: falsy input gives null; otherwise
    lower-case, strip whitespace and hyphens, and accept exactly a prefix
    alternative followed by one to five digits spanning the whole string,
    returning the two concatenated groups, which rebuild the string
    itself. -/
def normalizeGaineValue (v : Option Str) : Option Str :=
  match v with
  | none => none
  | some v0 =>
    if v0 = [] then none else
    let s := stripSpaceDash (v0.map jsToLower)
    firstSome
      (fun p =>
        if p.isPrefixOf s then
          let ds := s.drop p.length
          if (1 ≤ ds.length ∧ ds.length ≤ 5) ∧ ds.all isDigitChar = true then
            some (p ++ ds)
          else none
        else none)
      gainePrefixes

/-- normalizeIntent of the source: falsy input gives null; otherwise
    lower-case and test the three stems as prefixes in order. -/
def normalizeIntent (i : Option Str) : Option Intent :=
  match i with
  | none => none
  | some i0 =>
    if i0 = [] then none else
    let t := i0.map jsToLower
    if (str "entr").isPrefixOf t then some .entrees
    else if (str "sort").isPrefixOf t then some .sorties
    else if (str "stock").isPrefixOf t then some .stock
    else none

/-- Time object of the parsed model response: the four string fields the
    normalizer may read.  A missing field is none. -/
structure LlmTime where
  date : Option Str
  single : Option Str
  timeFrom : Option Str
  timeTo : Option Str
deriving DecidableEq

/-- normalizeTime of the source: a missing or non-object time gives the
    empty time; a truthy date or single field is resolved to a single
    day; otherwise truthy from and to fields resolving on both sides give
    a range; anything else gives the empty time. -/
def normalizeTime (t : Option LlmTime) : TimeSpec :=
  match t with
  | none => .unspecified
  | some t0 =>
    match jsTruthyStr (jsOrStr t0.date t0.single) with
    | some s =>
      (match parseFrenchDatePhrase s with
       | some iso => .date iso
       | none => .unspecified)
    | none =>
      match jsTruthyStr t0.timeFrom, jsTruthyStr t0.timeTo with
      | some f, some t1 =>
        (match parseFrenchDatePhrase f, parseFrenchDatePhrase t1 with
         | some a, some b => .range a b
         | _, _ => .unspecified)
      | _, _ => .unspecified

/-- Parsed shape of the model response that llmAnchorsParse reads: the
    intent string, the nested gaine value string, the time object. -/
structure LlmRaw where
  intent : Option Str
  gaineValue : Option Str
  time : Option LlmTime
deriving DecidableEq

/-- Normalization stage of llmAnchorsParse.  The HTTP call, a missing or
    empty response, a JSON parse failure and a thrown error all produce
    null and are modelled by the caller passing none for the parsed
    object; a disabled feature flag produces null first of all. -/
def llmAnchorsParse (useLLM : Bool) (raw : Option LlmRaw) : Option StructuredQuery :=
  if !useLLM then none else
  match raw with
  | none => none
  | some obj =>
    let intent := normalizeIntent obj.intent
    let gv := normalizeGaineValue obj.gaineValue
    let time := normalizeTime obj.time
    match intent, gv with
    | some i, some v => some ⟨some i, some ⟨v⟩, time⟩
    | _, _ => none

/-- Payload handed to the downstream router.  The mode field is the
    constant audio_nlp and is not modelled. -/
structure Payload where
  phone : Str
  intent : Option Intent
  gaine : Option Gaine
  time : TimeSpec
deriving DecidableEq

/-- buildAudioPayload generalized over the three fallback lookups, to
    state that they are not consulted when the anchor extractor succeeds.
    The anchored time is always an object, so the defaulting disjunction
    on it in the source never fires. -/
def buildAudioPayloadG (fi : Str → Option Intent) (fg : Str → Option Gaine)
    (ft : Str → TimeSpec) (text phone : Str) : Payload :=
  match extractByAnchors text with
  | some a => ⟨phone, a.intent, a.gaine, a.time⟩
  | none => ⟨phone, fi text, fg text, ft text⟩

/-- buildAudioPayload of the source, with the real fallback lookups. -/
def buildAudioPayload (text phone : Str) : Payload :=
  buildAudioPayloadG detectIntent extractGaine extractTime text phone

/-- Payload resolution of handleAudioSmart generalized over the model
    result: when the flag is on and the model extraction is non-null its
    fields form the payload, otherwise the local build runs. -/
def audioSmartPayloadG (useLLM : Bool) (llmRes : Option StructuredQuery)
    (fi : Str → Option Intent) (fg : Str → Option Gaine) (ft : Str → TimeSpec)
    (text phone : Str) : Payload :=
  match (if useLLM then llmRes else none) with
  | some l => ⟨phone, l.intent, l.gaine, l.time⟩
  | none => buildAudioPayloadG fi fg ft text phone

/-- Payload resolution of handleAudioSmart with the real local
    strategies. -/
def audioSmartPayload (useLLM : Bool) (llmRes : Option StructuredQuery)
    (text phone : Str) : Payload :=
  audioSmartPayloadG useLLM llmRes detectIntent extractGaine extractTime text phone

/-- User-facing outcome of handleAudioSmart: the intent clarification
    prompt, the identifier clarification prompt, or the handoff of the
    payload to the downstream router. -/
inductive SmartOutcome
  | askIntent
  | askGaine
  | route (p : Payload)
deriving DecidableEq

/-- Decision step of handleAudioSmart, source lines 361 to 372: a falsy
    intent asks for the intent, then a falsy gaine asks for the
    identifier, otherwise the payload is posted to the router. -/
def handleAudioDecision (p : Payload) : SmartOutcome :=
  match p.intent with
  | none => .askIntent
  | some _ =>
    match p.gaine with
    | none => .askGaine
    | some _ => .route p

/-- Discriminant of the three outcome shapes. -/
def outcomeTag : SmartOutcome → Nat
  | .askIntent => 0
  | .askGaine => 1
  | .route _ => 2

/-- handleAudioSmart generalized over the model result and the local
    strategies: resolve the payload, then decide. -/
def handleAudioSmartG (useLLM : Bool) (llmRes : Option StructuredQuery)
    (fi : Str → Option Intent) (fg : Str → Option Gaine) (ft : Str → TimeSpec)
    (text phone : Str) : SmartOutcome :=
  handleAudioDecision (audioSmartPayloadG useLLM llmRes fi fg ft text phone)

/-- handleAudioSmart of the source with the real local strategies. -/
def handleAudioSmart (useLLM : Bool) (llmRes : Option StructuredQuery)
    (text phone : Str) : SmartOutcome :=
  handleAudioDecision (audioSmartPayload useLLM llmRes text phone)

/-- waitForTranscribeSlot as a transition on the gate timestamp: given the
    stored grant time and the current clock, compute the elapsed time,
    suspend for the missing part of the minimum interval when the elapsed
    time is short, and store the post-suspension clock.  The suspension is
    modelled as resuming exactly when the requested delay ends.  Returns
    the grant time and the new stored timestamp. -/
def acquireSlot (minInterval last now : Int) : Int × Int :=
  let elapsed := now - last
  if elapsed < minInterval then
    let grant := now + (minInterval - elapsed)
    (grant, grant)
  else (now, now)

/-- Serialized semantics of the gate: grant times of a sequence of slot
    requests, each issued only after the previous slot was granted and its
    timestamp stored, the state threaded between them.  The stored
    timestamp returned by acquireSlot equals the grant time in both of its
    branches (the theorem acquireSlot_snd_eq), so the grant time is
    threaded as the next stored timestamp.  The source writes
    LAST_TRANSCRIBE_AT only after its suspension, so overlapping requests
    do not see each other's grants; that interleaved semantics is
    runGateEvents below. -/
def runGate (minInterval : Int) : Int → List Int → List Int
  | _, [] => []
  | last, now :: rest =>
    let g := (acquireSlot minInterval last now).1
    g :: runGate minInterval g rest

/-- Step of the search for the latest write before an instant t: a write
    dated before t supersedes a best candidate dated no later than it.
    (At equal instants the candidate seen later in the fold wins; the runs
    built in this development never produce that tie.) -/
def laterWrite (t : Int) (best : Option (Int × Int)) (w : Int × Int) :
    Option (Int × Int) :=
  if w.1 < t then
    match best with
    | none => some w
    | some b => if b.1 ≤ w.1 then some w else some b
  else best

/-- Value the gate variable holds at instant t, given the writes
    performed so far as pairs of write instant and stored value: the value
    of the latest write strictly before t, or the initial value when no
    write precedes t. -/
def lastValueBefore (init : Int) (writes : List (Int × Int)) (t : Int) : Int :=
  match writes.foldl (laterWrite t) none with
  | some b => b.2
  | none => init

/-- Interleaved semantics of waitForTranscribeSlot: each request reads
    LAST_TRANSCRIBE_AT synchronously at its start instant, computes its
    wait from that possibly stale value, and writes its grant instant back
    only when its suspension ends.  Requests are listed in start order;
    every write happens no earlier than its request's start, so a read can
    only observe writes of requests listed before it, and threading the
    write history through the list is faithful to the event loop. -/
def runGateEvents (minInterval init : Int) :
    List Int → List (Int × Int) → List Int
  | [], _ => []
  | s :: rest, writes =>
    let g := (acquireSlot minInterval (lastValueBefore init writes s) s).1
    g :: runGateEvents minInterval init rest ((g, g) :: writes)

/-- Serialization condition on a sequence of request start instants: each
    request starts strictly after the previous slot was granted (and its
    write landed). -/
def serializedStarts (minInterval : Int) : Int → List Int → Bool
  | _, [] => true
  | last, s :: rest =>
    decide (last < s) && serializedStarts minInterval (acquireSlot minInterval last s).1 rest

/-- Outcome of one transcription attempt: a response with an optional
    text, or an error with an optional HTTP status and a message. -/
inductive TranscribeOutcome
  | ok (text : Option Str)
  | err (status : Option Nat) (msg : Str)
deriving DecidableEq

/-- Throttling classification of transcribeAudio: status 429, or a
    message containing rate or quota case-insensitively. -/
def isRateErr (status : Option Nat) (msg : Str) : Bool :=
  status == some 429 || jsIncludes (msg.map jsToLower) (str "rate") ||
  jsIncludes (msg.map jsToLower) (str "quota")

/-- Backoff delay before the retry after the given attempt: the doubling
    base of 2000 milliseconds capped at 8000. -/
def backoffDelay (attempt : Nat) : Nat := min (2000 * 2 ^ attempt) 8000

/-- Successful-response text: the trimmed text, or the empty string when
    the text is missing (the source also maps a trimmed empty text to the
    empty string, which is the identity). -/
def okText (t : Option Str) : Str :=
  match t with
  | some s => jsTrim s
  | none => []

/-- Retry loop of transcribeAudio over an oracle giving the outcome of
    each attempt and an oracle giving the random jitter drawn before each
    retry.  The second argument counts the retries still allowed, so it
    equals the maximum retry count minus the attempt number; the loop
    guard of the source never exits on its own because a retry only
    happens while the attempt number is below the maximum.  Returns the
    final transcript and the list of backoff delays slept. -/
def transcribeGo (out : Nat → TranscribeOutcome) (jit : Nat → Nat) :
    Nat → Nat → Str × List Nat
  | attempt, remaining =>
    match out attempt with
    | .ok t => (okText t, [])
    | .err st msg =>
      if isRateErr st msg then
        match remaining with
        | r + 1 =>
          let res := transcribeGo out jit (attempt + 1) r
          (res.1, (backoffDelay attempt + jit attempt) :: res.2)
        | 0 => ([], [])
      else ([], [])

/-- transcribeAudio of the source: the retry loop started at attempt zero
    with the configured maximum retry count. -/
def transcribeAudio (out : Nat → TranscribeOutcome) (jit : Nat → Nat)
    (maxRetries : Nat) : Str × List Nat :=
  transcribeGo out jit 0 maxRetries

/-- Valid gaine value shape of the data-model invariant: one of the four
    lower-case prefixes immediately followed by one to five decimal
    digits, hence no whitespace and no hyphen anywhere. -/
def IsValidGaineValue (s : Str) : Prop :=
  ∃ p ds, p ∈ gainePrefixes ∧ s = p ++ ds ∧ (∀ c ∈ ds, isDigitChar c = true) ∧
    1 ≤ ds.length ∧ ds.length ≤ 5

/-- Shape of every non-null resolver output: a year part of one to four
    digits or the literal text undefined, a hyphen, a month part that is
    two to four digits or the stringified inherited constructor function,
    a hyphen, a two-digit day part.  The four-digit-year ISO shape of the
    claim is the test isCanonicalYmd; this looser shape is what the code
    guarantees. -/
def looseDateShape (s : Str) : Bool :=
  let y := s.takeWhile (fun c => !(c == '-'))
  (decide (1 ≤ y.length ∧ y.length ≤ 4) && y.all isDigitChar || y == str "undefined") &&
  (match s.dropWhile (fun c => !(c == '-')) with
   | '-' :: r1 =>
     let m := r1.takeWhile (fun c => !(c == '-'))
     (decide (2 ≤ m.length ∧ m.length ≤ 4) && m.all isDigitChar ||
      m == str "function Object() \x7b [native code] \x7d") &&
     (match r1.dropWhile (fun c => !(c == '-')) with
      | '-' :: r2 => r2.all isDigitChar && decide (r2.length = 2)
      | _ => false)
   | _ => false)

/-- Modelled from the spec: claim C7 reads the stem matching of
    detectIntent as matching each stem only at the start of a word, that
    is, at the start of the text or right after a character that is not a
    word character.  This definition follows the wording of the claim so
    that the source function can be compared against it; the flag carries
    the word status of the previous character. -/
def stemAtWordStart (stem : Str) : Bool → Str → Bool
  | _, [] => false
  | prevWord, c :: rest =>
    (!prevWord && stem.isPrefixOf (c :: rest)) || stemAtWordStart stem (isWordChar c) rest

/-- Modelled from the spec: detectIntent as claim C7 states it, matching
    the stems only at word starts, in the same priority order. -/
def detectIntentWordStart (t : Str) : Option Intent :=
  let low := normKeepAccents t
  if stemAtWordStart (str "entr") false low then some .entrees
  else if stemAtWordStart (str "sort") false low then some .sorties
  else if stemAtWordStart (str "stock") false low then some .stock
  else none

/-! Theorems.  Shared helper lemmas come first, then one theorem per
    claim, each with its witness when the statement carries a
    hypothesis. -/

/-- Claim C1.  The specification claims that the input about the entries
    of gab22 from the first to the fifteenth of March 2025 yields the
    inclusive range from 2025-03-01 to 2025-03-15, both full date
    expressions being passed to the resolver.  The code disagrees: the
    lazy second group of the range pattern ends at the first word
    boundary, so the second expression handed to the resolver is the bare
    day number 15, which does not resolve, and the half-resolved range is
    discarded, leaving the time empty.  This theorem evaluates the code at
    the failing input: the returned query has intent entrees and gaine
    gab22 but an unspecified time, the two captured range groups being the
    full first expression and the truncated second one. -/
theorem c1_range_truncation :
    extractByAnchors (str "les entrées de gab22 du 1er mars 2025 au 15 mars 2025") =
      some ⟨some Intent.entrees, some ⟨str "gab22"⟩, TimeSpec.unspecified⟩ ∧
    scanRange false
        (normKeepAccents (str "les entrées de gab22 du 1er mars 2025 au 15 mars 2025")) =
      some (str "1er mars 2025", str "15") ∧
    parseFrenchDatePhrase (str "1er mars 2025") = some (str "2025-03-01") ∧
    parseFrenchDatePhrase (str "15") = none := by
  refine ⟨?_, ?_, ?_, ?_⟩ <;> decide

/-- Claim C2.  Both the anchor extractor and the model-output normalizer
    return either null or a structured query carrying both the intent and
    the gaine; neither ever returns a result missing one of the two
    required fields. -/
theorem c2_required_fields :
    (∀ text : Str, extractByAnchors text = none ∨
       ∃ q, extractByAnchors text = some q ∧ q.intent.isSome = true ∧ q.gaine.isSome = true) ∧
    (∀ (useLLM : Bool) (raw : Option LlmRaw), llmAnchorsParse useLLM raw = none ∨
       ∃ q, llmAnchorsParse useLLM raw = some q ∧ q.intent.isSome = true ∧
         q.gaine.isSome = true) := by
  constructor
  · intro text
    cases h1 : scanIntent false (normKeepAccents text) with
    | none => left; simp [extractByAnchors, h1]
    | some kw =>
      cases h2 : scanGaine false (normKeepAccents text) with
      | none => left; simp [extractByAnchors, h1, h2]
      | some cap =>
        right
        exact ⟨⟨some (intentOfKeyword (kw.map jsToLower)),
                some ⟨stripSpaceDash (cap.map jsToLower)⟩,
                anchorsTime (normKeepAccents text)⟩,
               by simp [extractByAnchors, h1, h2], rfl, rfl⟩
  · intro useLLM raw
    cases useLLM with
    | false => left; simp [llmAnchorsParse]
    | true =>
      cases raw with
      | none => left; simp [llmAnchorsParse]
      | some obj =>
        cases h1 : normalizeIntent obj.intent with
        | none => left; simp [llmAnchorsParse, h1]
        | some i =>
          cases h2 : normalizeGaineValue obj.gaineValue with
          | none => left; simp [llmAnchorsParse, h1, h2]
          | some v =>
            right
            exact ⟨⟨some i, some ⟨v⟩, normalizeTime obj.time⟩,
                   by simp [llmAnchorsParse, h1, h2], rfl, rfl⟩

/-- Claim C8.  The orchestrator decision after payload resolution depends
    only on the presence of the intent and of the gaine: a missing intent
    asks for the intent, a present intent with a missing gaine asks for
    the identifier, and both present hand the payload to the router
    whatever the time is, an unspecified time included. -/
theorem c8_orchestrator_decision :
    (∀ p : Payload, p.intent = none → handleAudioDecision p = SmartOutcome.askIntent) ∧
    (∀ (p : Payload) (i : Intent), p.intent = some i → p.gaine = none →
       handleAudioDecision p = SmartOutcome.askGaine) ∧
    (∀ (p : Payload) (i : Intent) (g : Gaine), p.intent = some i → p.gaine = some g →
       handleAudioDecision p = SmartOutcome.route p) ∧
    (∀ p q : Payload, p.intent.isSome = q.intent.isSome → p.gaine.isSome = q.gaine.isSome →
       outcomeTag (handleAudioDecision p) = outcomeTag (handleAudioDecision q)) ∧
    (∀ (phone : Str) (i : Intent) (g : Gaine),
       handleAudioDecision ⟨phone, some i, some g, TimeSpec.unspecified⟩ =
         SmartOutcome.route ⟨phone, some i, some g, TimeSpec.unspecified⟩) := by
  refine ⟨?_, ?_, ?_, ?_, ?_⟩
  · intro p h; simp [handleAudioDecision, h]
  · intro p i h1 h2; simp [handleAudioDecision, h1, h2]
  · intro p i g h1 h2; simp [handleAudioDecision, h1, h2]
  · intro p q h1 h2
    obtain ⟨pp, pi, pg, pt⟩ := p
    obtain ⟨qp, qi, qg, qt⟩ := q
    cases pi <;> cases qi <;> cases pg <;> cases qg <;>
      simp_all [handleAudioDecision, outcomeTag]
  · intro phone i g; simp [handleAudioDecision]

/-- Witness for claim C8 at concrete payloads. -/
theorem c8_witness :
    handleAudioDecision ⟨str "212", none, none, TimeSpec.unspecified⟩ =
      SmartOutcome.askIntent ∧
    handleAudioDecision ⟨str "212", some Intent.sorties, none, TimeSpec.unspecified⟩ =
      SmartOutcome.askGaine ∧
    handleAudioDecision
        ⟨str "212", some Intent.sorties, some ⟨str "gsb11"⟩, TimeSpec.unspecified⟩ =
      SmartOutcome.route
        ⟨str "212", some Intent.sorties, some ⟨str "gsb11"⟩, TimeSpec.unspecified⟩ ∧
    outcomeTag (handleAudioDecision ⟨str "212", some Intent.sorties, some ⟨str "gsb11"⟩,
        TimeSpec.date (str "2025-10-01")⟩) =
      outcomeTag (handleAudioDecision
        ⟨str "212", some Intent.sorties, some ⟨str "gsb11"⟩, TimeSpec.unspecified⟩) :=
  ⟨c8_orchestrator_decision.1 _ rfl,
   c8_orchestrator_decision.2.1 _ Intent.sorties rfl rfl,
   c8_orchestrator_decision.2.2.1 _ Intent.sorties ⟨str "gsb11"⟩ rfl rfl,
   c8_orchestrator_decision.2.2.2.1 _ _ rfl rfl⟩

/-- Claim C9.  The strategy chain short-circuits strictly: when the
    anchor extractor succeeds the payload is built from its result alone
    and the three fallback lookups have no influence; when the enabled
    model extraction succeeds the payload is its result alone, independent
    of every local strategy; and only when the model path yields nothing
    does the local build run.  No fields are merged across strategies. -/
theorem c9_strict_short_circuit :
    (∀ (fi fi2 : Str → Option Intent) (fg fg2 : Str → Option Gaine)
       (ft ft2 : Str → TimeSpec) (text phone : Str),
       (extractByAnchors text).isSome = true →
       buildAudioPayloadG fi fg ft text phone = buildAudioPayloadG fi2 fg2 ft2 text phone) ∧
    (∀ (fi : Str → Option Intent) (fg : Str → Option Gaine) (ft : Str → TimeSpec)
       (text phone : Str) (a : StructuredQuery), extractByAnchors text = some a →
       buildAudioPayloadG fi fg ft text phone = ⟨phone, a.intent, a.gaine, a.time⟩) ∧
    (∀ (llmRes : Option StructuredQuery) (l : StructuredQuery)
       (fi fi2 : Str → Option Intent) (fg fg2 : Str → Option Gaine)
       (ft ft2 : Str → TimeSpec) (text phone : Str), llmRes = some l →
       audioSmartPayloadG true llmRes fi fg ft text phone =
         ⟨phone, l.intent, l.gaine, l.time⟩ ∧
       audioSmartPayloadG true llmRes fi fg ft text phone =
         audioSmartPayloadG true llmRes fi2 fg2 ft2 text phone) ∧
    (∀ (useLLM : Bool) (llmRes : Option StructuredQuery)
       (fi : Str → Option Intent) (fg : Str → Option Gaine) (ft : Str → TimeSpec)
       (text phone : Str), (if useLLM then llmRes else none) = none →
       audioSmartPayloadG useLLM llmRes fi fg ft text phone =
         buildAudioPayloadG fi fg ft text phone) := by
  refine ⟨?_, ?_, ?_, ?_⟩
  · intro fi fi2 fg fg2 ft ft2 text phone h
    cases h1 : extractByAnchors text with
    | none => rw [h1] at h; simp at h
    | some a => simp [buildAudioPayloadG, h1]
  · intro fi fg ft text phone a h; simp [buildAudioPayloadG, h]
  · intro llmRes l fi fi2 fg fg2 ft ft2 text phone h
    subst h; exact ⟨by simp [audioSmartPayloadG], by simp [audioSmartPayloadG]⟩
  · intro useLLM llmRes fi fg ft text phone h
    simp [audioSmartPayloadG, h]

/-- Witness for claim C9: a text on which the anchor extractor succeeds,
    two pairs of disagreeing fallback lookups that nevertheless give equal
    payloads, and a concrete model result that alone forms the payload. -/
theorem c9_witness :
    buildAudioPayloadG (fun _ => some Intent.stock) (fun _ => some ⟨str "gl90"⟩)
        (fun _ => TimeSpec.date (str "2024-01-01")) (str "les sorties de gsb11") (str "212") =
      buildAudioPayloadG (fun _ => none) (fun _ => none) (fun _ => TimeSpec.unspecified)
        (str "les sorties de gsb11") (str "212") ∧
    audioSmartPayloadG true (some ⟨some Intent.stock, some ⟨str "gl90"⟩, TimeSpec.unspecified⟩)
        (fun _ => some Intent.entrees) (fun _ => none) (fun _ => TimeSpec.unspecified)
        (str "abc") (str "212") =
      ⟨str "212", some Intent.stock, some ⟨str "gl90"⟩, TimeSpec.unspecified⟩ ∧
    audioSmartPayloadG false (some ⟨some Intent.stock, some ⟨str "gl90"⟩, TimeSpec.unspecified⟩)
        (fun _ => none) (fun _ => none) (fun _ => TimeSpec.unspecified)
        (str "stock gl90") (str "212") =
      buildAudioPayloadG (fun _ => none) (fun _ => none) (fun _ => TimeSpec.unspecified)
        (str "stock gl90") (str "212") :=
  ⟨c9_strict_short_circuit.1 _ _ _ _ _ _ _ _ (by decide),
   (c9_strict_short_circuit.2.2.1 _ _ (fun _ => some Intent.entrees) (fun _ => some Intent.entrees)
      (fun _ => none) (fun _ => none) (fun _ => TimeSpec.unspecified) (fun _ => TimeSpec.unspecified)
      _ _ rfl).1,
   c9_strict_short_circuit.2.2.2 false _ _ _ _ _ _ rfl⟩

/-- Behaviour of the retry loop from any starting attempt: the number of
    delays is bounded by the remaining retries, each delay follows the
    backoff formula with its jitter, every retried attempt failed with a
    throttling error, and the terminal attempt determines the transcript:
    an error of any kind there gives the empty transcript, a response
    gives its trimmed text. -/
theorem transcribeGo_spec (out : Nat → TranscribeOutcome) (jit : Nat → Nat) :
    ∀ (remaining attempt : Nat),
      ((transcribeGo out jit attempt remaining).2.length ≤ remaining) ∧
      (∀ i, i < (transcribeGo out jit attempt remaining).2.length →
        (transcribeGo out jit attempt remaining).2.get? i =
          some (backoffDelay (attempt + i) + jit (attempt + i))) ∧
      (∀ k, k < (transcribeGo out jit attempt remaining).2.length →
        ∃ st msg, out (attempt + k) = .err st msg ∧ isRateErr st msg = true) ∧
      (∀ st msg,
        out (attempt + (transcribeGo out jit attempt remaining).2.length) = .err st msg →
        (transcribeGo out jit attempt remaining).1 = []) ∧
      (∀ t, out (attempt + (transcribeGo out jit attempt remaining).2.length) = .ok t →
        (transcribeGo out jit attempt remaining).1 = okText t) := by
  intro remaining
  induction remaining with
  | zero =>
    intro attempt
    refine ⟨?_, ?_, ?_, ?_, ?_⟩ <;>
      cases h : out attempt <;>
      simp_all [transcribeGo]
  | succ r ih =>
    intro attempt
    cases h : out attempt with
    | ok t =>
      refine ⟨?_, ?_, ?_, ?_, ?_⟩ <;> simp_all [transcribeGo]
    | err st msg =>
      cases hr : isRateErr st msg with
      | false =>
        refine ⟨?_, ?_, ?_, ?_, ?_⟩ <;> simp_all [transcribeGo]
      | true =>
        have hg : transcribeGo out jit attempt (r + 1) =
            ((transcribeGo out jit (attempt + 1) r).1,
             (backoffDelay attempt + jit attempt) ::
               (transcribeGo out jit (attempt + 1) r).2) := by
          simp [transcribeGo, h, hr]
        obtain ⟨ih1, ih2, ih3, ih4, ih5⟩ := ih (attempt + 1)
        refine ⟨?_, ?_, ?_, ?_, ?_⟩
        · rw [hg]; simpa using ih1
        · intro i hi
          rw [hg] at hi ⊢
          cases i with
          | zero => simp
          | succ j =>
            simp only [List.length_cons] at hi
            have := ih2 j (by omega)
            simp only [List.get?_cons_succ]
            rw [this]
            have he : attempt + 1 + j = attempt + (j + 1) := by omega
            rw [he]
        · intro k hk
          rw [hg] at hk
          cases k with
          | zero => exact ⟨st, msg, by simpa using h, hr⟩
          | succ j =>
            simp only [List.length_cons] at hk
            have := ih3 j (by omega)
            have he : attempt + 1 + j = attempt + (j + 1) := by omega
            rw [he] at this
            simpa using this
        · intro st2 msg2 hterm
          rw [hg]
          rw [hg] at hterm
          simp only [List.length_cons] at hterm
          have he : attempt + ((transcribeGo out jit (attempt + 1) r).2.length + 1) =
              attempt + 1 + (transcribeGo out jit (attempt + 1) r).2.length := by omega
          rw [he] at hterm
          simpa using ih4 st2 msg2 hterm
        · intro t hterm
          rw [hg]
          rw [hg] at hterm
          simp only [List.length_cons] at hterm
          have he : attempt + ((transcribeGo out jit (attempt + 1) r).2.length + 1) =
              attempt + 1 + (transcribeGo out jit (attempt + 1) r).2.length := by omega
          rw [he] at hterm
          simpa using ih5 t hterm

/-- Exhaustion of the retry loop: when every attempt in reach fails with a
    throttling error, the loop spends all remaining retries and ends with
    the empty transcript. -/
theorem transcribeGo_exhaust (out : Nat → TranscribeOutcome) (jit : Nat → Nat) :
    ∀ (remaining attempt : Nat),
      (∀ i, attempt ≤ i → i ≤ attempt + remaining →
        ∃ st msg, out i = .err st msg ∧ isRateErr st msg = true) →
      (transcribeGo out jit attempt remaining).1 = [] ∧
      (transcribeGo out jit attempt remaining).2.length = remaining := by
  intro remaining
  induction remaining with
  | zero =>
    intro attempt hall
    obtain ⟨st, msg, h, hr⟩ := hall attempt le_rfl (by omega)
    constructor <;> simp [transcribeGo, h, hr]
  | succ r ih =>
    intro attempt hall
    obtain ⟨st, msg, h, hr⟩ := hall attempt le_rfl (by omega)
    have := ih (attempt + 1) (fun i h1 h2 => hall i (by omega) (by omega))
    constructor <;> simp [transcribeGo, h, hr, this.1, this.2]

/-- Claim C5.  For every execution of transcribeAudio, modelled over an
    oracle of per-attempt outcomes and a jitter oracle: the number of
    retries never exceeds the configured maximum; the retry after attempt
    i waits the minimum of 2000 times 2 to the i and 8000 milliseconds
    plus the jitter drawn for that attempt; every retried attempt had
    failed with a rate or quota error (HTTP 429 or a message containing
    rate or quota), so any other failure is terminal; a terminal failure
    of any kind yields the empty transcript, and in particular exhausting
    all retries on throttling failures yields the empty transcript.  The
    loop is a total function, so no exception escapes it. -/
theorem c5_transcribe_retry_policy :
    ∀ (out : Nat → TranscribeOutcome) (jit : Nat → Nat) (maxRetries : Nat),
      ((transcribeAudio out jit maxRetries).2.length ≤ maxRetries) ∧
      (∀ i, i < (transcribeAudio out jit maxRetries).2.length →
        (transcribeAudio out jit maxRetries).2.get? i =
          some (min (2000 * 2 ^ i) 8000 + jit i)) ∧
      (∀ k, k < (transcribeAudio out jit maxRetries).2.length →
        ∃ st msg, out k = .err st msg ∧ isRateErr st msg = true) ∧
      (∀ st msg, out ((transcribeAudio out jit maxRetries).2.length) = .err st msg →
        (transcribeAudio out jit maxRetries).1 = []) ∧
      (∀ t, out ((transcribeAudio out jit maxRetries).2.length) = .ok t →
        (transcribeAudio out jit maxRetries).1 = okText t) ∧
      ((∀ i, i ≤ maxRetries → ∃ st msg, out i = .err st msg ∧ isRateErr st msg = true) →
        (transcribeAudio out jit maxRetries).1 = [] ∧
        (transcribeAudio out jit maxRetries).2.length = maxRetries) := by
  intro out jit maxRetries
  obtain ⟨h1, h2, h3, h4, h5⟩ := transcribeGo_spec out jit maxRetries 0
  refine ⟨h1, ?_, ?_, ?_, ?_, ?_⟩
  · intro i hi
    have := h2 i hi
    simpa [backoffDelay] using this
  · intro k hk
    have := h3 k hk
    simpa using this
  · intro st msg h
    exact h4 st msg (by simpa using h)
  · intro t h
    exact h5 t (by simpa using h)
  · intro hall
    exact transcribeGo_exhaust out jit maxRetries 0
      (fun i h1 h2 => hall i (by omega))

/-- Witness for claim C5: a run that is throttled once with status 429,
    then throttled once through a rate message, then answers; the two
    delays follow the backoff formula and the transcript is the trimmed
    text. -/
theorem c5_witness :
    ((transcribeAudio
        (fun i => if i = 0 then TranscribeOutcome.err (some 429) (str "Too many requests")
          else if i = 1 then TranscribeOutcome.err none (str "Rate limit reached")
          else TranscribeOutcome.ok (some (str " bonjour ")))
        (fun k => 10 * k + 7) 3).2.get? 1 =
      some (min (2000 * 2 ^ 1) 8000 + (10 * 1 + 7))) ∧
    ((transcribeAudio
        (fun i => if i = 0 then TranscribeOutcome.err (some 429) (str "Too many requests")
          else if i = 1 then TranscribeOutcome.err none (str "Rate limit reached")
          else TranscribeOutcome.ok (some (str " bonjour ")))
        (fun k => 10 * k + 7) 3).1 = okText (some (str " bonjour "))) := by
  constructor
  · have := (c5_transcribe_retry_policy
      (fun i => if i = 0 then TranscribeOutcome.err (some 429) (str "Too many requests")
        else if i = 1 then TranscribeOutcome.err none (str "Rate limit reached")
        else TranscribeOutcome.ok (some (str " bonjour ")))
      (fun k => 10 * k + 7) 3).2.1 1 (by decide)
    simpa using this
  · have := (c5_transcribe_retry_policy
      (fun i => if i = 0 then TranscribeOutcome.err (some 429) (str "Too many requests")
        else if i = 1 then TranscribeOutcome.err none (str "Rate limit reached")
        else TranscribeOutcome.ok (some (str " bonjour ")))
      (fun k => 10 * k + 7) 3).2.2.2.2.1 (some (str " bonjour ")) (by decide)
    simpa using this

/-- Both components of acquireSlot coincide: the stored timestamp is the
    grant time, taken after any suspension. -/
theorem acquireSlot_snd_eq (minI last now : Int) :
    (acquireSlot minI last now).2 = (acquireSlot minI last now).1 := by
  simp only [acquireSlot]
  split_ifs <;> rfl

/-- Grant time of acquireSlot as the wait formula of the claim. -/
theorem acquireSlot_grant (minI last now : Int) :
    (acquireSlot minI last now).1 = now + max 0 (minI - (now - last)) := by
  simp only [acquireSlot]
  split_ifs with h
  · rw [max_eq_right (by omega)]
  · rw [max_eq_left (by omega)]
    omega

/-- Lower bound of the grant time: a slot is granted no sooner than one
    minimum interval after the stored timestamp. -/
theorem acquireSlot_ge (minI last now : Int) :
    last + minI ≤ (acquireSlot minI last now).1 := by
  simp only [acquireSlot]
  split_ifs with h
  · omega
  · omega

/-- runGate grants exactly one slot per request. -/
theorem runGate_length (minI : Int) :
    ∀ (nows : List Int) (last : Int), (runGate minI last nows).length = nows.length := by
  intro nows
  induction nows with
  | nil => intro last; rfl
  | cons now rest ih => intro last; simp [runGate, ih]

/-- The first grant of a run sits at least one minimum interval after the
    incoming stored timestamp. -/
theorem runGate_head_ge (minI : Int) :
    ∀ (nows : List Int) (last : Int) (h : 0 < (runGate minI last nows).length),
      last + minI ≤ (runGate minI last nows).get ⟨0, h⟩ := by
  intro nows
  cases nows with
  | nil => intro last h; simp [runGate] at h
  | cons now rest =>
    intro last h
    simpa [runGate] using acquireSlot_ge minI last now

/-- Consecutive grants are spaced by at least the minimum interval. -/
theorem runGate_chain (minI : Int) :
    ∀ (nows : List Int) (last : Int) (i : Nat)
      (h : i + 1 < (runGate minI last nows).length),
      (runGate minI last nows).get ⟨i, by omega⟩ + minI ≤
        (runGate minI last nows).get ⟨i + 1, h⟩ := by
  intro nows
  induction nows with
  | nil => intro last i h; simp [runGate] at h
  | cons now rest ih =>
    intro last i h
    cases i with
    | zero =>
      have hlen : 0 < (runGate minI (acquireSlot minI last now).1 rest).length := by
        simp [runGate] at h
        omega
      have hhead := runGate_head_ge minI rest (acquireSlot minI last now).1 hlen
      simpa [runGate] using hhead
    | succ k =>
      have hlen : k + 1 < (runGate minI (acquireSlot minI last now).1 rest).length := by
        simp [runGate] at h ⊢
        omega
      have := ih (acquireSlot minI last now).1 k hlen
      simpa [runGate] using this

/-- Accumulated spacing: a grant d requests later is at least d minimum
    intervals later. -/
theorem runGate_accum (minI : Int) :
    ∀ (d : Nat) (nows : List Int) (last : Int) (i : Nat)
      (h : i + d < (runGate minI last nows).length),
      (runGate minI last nows).get ⟨i, by omega⟩ + (d : Int) * minI ≤
        (runGate minI last nows).get ⟨i + d, h⟩ := by
  intro d
  induction d with
  | zero => intro nows last i h; simp
  | succ k ih =>
    intro nows last i h
    have hk : i + k < (runGate minI last nows).length := by omega
    have h1 := ih nows last i hk
    have h2 := runGate_chain minI nows last (i + k) (by omega)
    refine le_trans ?_ h2
    push_cast
    linarith

/-- A best candidate whose write instant dominates every write in the
    list survives the whole fold. -/
theorem foldl_laterWrite_keep (t : Int) (gp : Int × Int) :
    ∀ (writes : List (Int × Int)), (∀ w ∈ writes, w.1 < gp.1) →
      writes.foldl (laterWrite t) (some gp) = some gp := by
  intro writes
  induction writes with
  | nil => intro _; rfl
  | cons w rest ih =>
    intro hw
    have hwg := hw w (by simp)
    have hstep : laterWrite t (some gp) w = some gp := by
      unfold laterWrite
      split_ifs with h1
      · simp only []
        rw [if_neg (by omega)]
      · rfl
    simp only [List.foldl_cons, hstep]
    exact ih (fun w2 hw2 => hw w2 (by simp [hw2]))

/-- The value read after the latest write has landed is that write's
    value, provided every older write is strictly earlier. -/
theorem lastValueBefore_newest (init g : Int) (writes : List (Int × Int)) (t : Int)
    (hg : g < t) (hw : ∀ w ∈ writes, w.1 < g) :
    lastValueBefore init ((g, g) :: writes) t = g := by
  unfold lastValueBefore
  have h1 : laterWrite t none (g, g) = some (g, g) := by
    unfold laterWrite
    rw [if_pos hg]
  simp only [List.foldl_cons, h1, foldl_laterWrite_keep t (g, g) writes hw]

/-- Under serialization the interleaved semantics collapses to the
    serialized one: when each request starts strictly after the previous
    grant, every read sees the latest write, so the stale-read event model
    computes exactly the state-threaded grants. -/
theorem runGateEvents_serialized (minI : Int) :
    ∀ (starts : List Int) (init last : Int) (writes : List (Int × Int)),
      (∀ w ∈ writes, w.1 ≤ last) →
      (∀ t, last < t → lastValueBefore init writes t = last) →
      serializedStarts minI last starts = true →
      runGateEvents minI init starts writes = runGate minI last starts := by
  intro starts
  induction starts with
  | nil => intro init last writes _ _ _; rfl
  | cons s rest ih =>
    intro init last writes hw hlv hser
    simp only [serializedStarts, Bool.and_eq_true, decide_eq_true_eq] at hser
    obtain ⟨hls, hser2⟩ := hser
    have hread : lastValueBefore init writes s = last := hlv s hls
    have hg : last < (acquireSlot minI last s).1 := by
      simp only [acquireSlot]
      split_ifs with h
      · omega
      · omega
    simp only [runGateEvents, runGate, hread]
    congr 1
    exact ih init (acquireSlot minI last s).1
      (((acquireSlot minI last s).1, (acquireSlot minI last s).1) :: writes)
      (by
        intro w hw2
        rcases List.mem_cons.mp hw2 with rfl | hmem
        · exact le_refl _
        · exact le_trans (hw w hmem) (le_of_lt hg))
      (by
        intro t ht
        exact lastValueBefore_newest init _ writes t ht
          (fun w hm => lt_of_le_of_lt (hw w hm) hg))
      hser2

/-- Counterexample to claim C6 as stated: two slot requests issued at the
    same instant, the tightest case of negligible inter-request delay.
    The source writes the shared timestamp only after its suspension, so
    under the interleaved semantics both callers read the stale initial
    value, compute the same wait, and are granted at the same instant
    five; the grant spacing is zero, not the minimum interval five. -/
theorem c6_counterexample :
    runGateEvents 5 0 [0, 0] [] = [5, 5] ∧
    ¬ ((runGateEvents 5 0 [0, 0] []).get ⟨0, by decide⟩ + 5 ≤
       (runGateEvents 5 0 [0, 0] []).get ⟨1, by decide⟩) := by
  refine ⟨?_, ?_⟩ <;> decide

/-- Claim C6 as amended.  The rate gate computes the wait as the
    nonnegative part of the minimum interval minus the elapsed time and
    stores the post-wait grant time as the new timestamp; when the slot
    acquisitions are serialized — each request issued only after the
    previous slot was granted — the interleaved read/write semantics
    agrees with the state-threaded one, the gate grants one slot per
    request, spaces consecutive grants by at least the minimum interval,
    and over any run the grant d requests later is at least d intervals
    later, so N such requests span at least N minus one intervals. -/
theorem c6_amended_rate_gate :
    (∀ minInterval last now : Int,
       (acquireSlot minInterval last now).1 =
         now + max 0 (minInterval - (now - last)) ∧
       (acquireSlot minInterval last now).2 = (acquireSlot minInterval last now).1) ∧
    (∀ (minInterval init : Int) (starts : List Int),
       serializedStarts minInterval init starts = true →
       runGateEvents minInterval init starts [] = runGate minInterval init starts) ∧
    (∀ (minInterval last : Int) (nows : List Int),
       (runGate minInterval last nows).length = nows.length) ∧
    (∀ (minInterval last : Int) (nows : List Int) (i : Nat)
       (h : i + 1 < (runGate minInterval last nows).length),
       (runGate minInterval last nows).get ⟨i, by omega⟩ + minInterval ≤
         (runGate minInterval last nows).get ⟨i + 1, h⟩) ∧
    (∀ (minInterval last : Int) (nows : List Int) (d i : Nat)
       (h : i + d < (runGate minInterval last nows).length),
       (runGate minInterval last nows).get ⟨i, by omega⟩ + (d : Int) * minInterval ≤
         (runGate minInterval last nows).get ⟨i + d, h⟩) :=
  ⟨fun minI last now => ⟨acquireSlot_grant minI last now, acquireSlot_snd_eq minI last now⟩,
   fun minI init starts hser =>
     runGateEvents_serialized minI starts init init []
       (by intro w hw; simp at hw) (fun t _ => rfl) hser,
   fun minI last nows => runGate_length minI nows last,
   fun minI last nows i h => runGate_chain minI nows last i h,
   fun minI last nows d i h => runGate_accum minI d nows last i h⟩

/-- Witness for claim C6 as amended: three serialized requests — each
    issued after the previous grant — under a minimum interval of five
    are granted at five, ten and fifteen under both semantics, so
    consecutive grants differ by at least five and the whole run spans
    two intervals. -/
theorem c6_witness :
    (acquireSlot 5 0 2).1 = 2 + max 0 (5 - (2 - 0)) ∧
    runGateEvents 5 0 [1, 7, 13] [] = runGate 5 0 [1, 7, 13] ∧
    (runGate 5 0 [1, 7, 13]).get ⟨0, by decide⟩ + 5 ≤
      (runGate 5 0 [1, 7, 13]).get ⟨0 + 1, by decide⟩ ∧
    (runGate 5 0 [1, 7, 13]).get ⟨0, by decide⟩ + ((2 : Nat) : Int) * 5 ≤
      (runGate 5 0 [1, 7, 13]).get ⟨0 + 2, by decide⟩ :=
  ⟨(c6_amended_rate_gate.1 5 0 2).1,
   c6_amended_rate_gate.2.1 5 0 [1, 7, 13] (by decide),
   c6_amended_rate_gate.2.2.2.1 5 0 [1, 7, 13] 0 (by decide),
   c6_amended_rate_gate.2.2.2.2 5 0 [1, 7, 13] 2 0 (by decide)⟩

/-- The substring test of the source agrees with the list infix
    relation. -/
theorem jsIncludes_iff_infix (s sub : Str) : jsIncludes s sub = true ↔ sub <:+: s := by
  induction s with
  | nil => simp [jsIncludes, List.isEmpty_iff, List.infix_nil]
  | cons c rest ih =>
    simp [jsIncludes, Bool.or_eq_true, List.isPrefixOf_iff_prefix, ih, List.infix_cons_iff]

/-- Counterexample to claim C7 as stated: the word concentration contains
    the stem entr only in the middle of a word, no word of the input
    starts with any stem, yet detectIntent returns the entries intent,
    because the source tests the stems as substrings anywhere; the
    word-start reading of the claim returns nothing on the same input. -/
theorem c7_counterexample :
    detectIntent (str "la concentration") = some Intent.entrees ∧
    detectIntentWordStart (str "la concentration") = none ∧
    jsIncludes (normKeepAccents (str "la concentration")) (str "entr") = true := by
  refine ⟨?_, ?_, ?_⟩ <;> decide

/-- Claim C7 as amended: detectIntent returns the first matching stem in
    the priority order entries, exits, stock, matching each stem as a
    substring occurring anywhere in the lower-cased whitespace-normalized
    text rather than only at word starts, and returns null when no stem
    occurs. -/
theorem c7_amended_substring_intent :
    ∀ t : Str,
      (detectIntent t = some Intent.entrees ↔ (str "entr") <:+: normKeepAccents t) ∧
      (detectIntent t = some Intent.sorties ↔
        ¬ ((str "entr") <:+: normKeepAccents t) ∧ (str "sort") <:+: normKeepAccents t) ∧
      (detectIntent t = some Intent.stock ↔
        ¬ ((str "entr") <:+: normKeepAccents t) ∧ ¬ ((str "sort") <:+: normKeepAccents t) ∧
        (str "stock") <:+: normKeepAccents t) ∧
      (detectIntent t = none ↔
        ¬ ((str "entr") <:+: normKeepAccents t) ∧ ¬ ((str "sort") <:+: normKeepAccents t) ∧
        ¬ ((str "stock") <:+: normKeepAccents t)) := by
  intro t
  have he := jsIncludes_iff_infix (normKeepAccents t) (str "entr")
  have hs := jsIncludes_iff_infix (normKeepAccents t) (str "sort")
  have hk := jsIncludes_iff_infix (normKeepAccents t) (str "stock")
  cases h1 : jsIncludes (normKeepAccents t) (str "entr") <;>
  cases h2 : jsIncludes (normKeepAccents t) (str "sort") <;>
  cases h3 : jsIncludes (normKeepAccents t) (str "stock") <;>
    rw [h1] at he <;> rw [h2] at hs <;> rw [h3] at hk <;>
    simp [detectIntent, h1, h2, h3, ← he, ← hs, ← hk]

/-- Character order and equality transported to code points. -/
theorem char_le_iff (a b : Char) : a ≤ b ↔ a.toNat ≤ b.toNat := by
  rw [Char.le_def]; exact Iff.rfl

/-- Character equality transported to code points. -/
theorem char_eq_iff (a b : Char) : a = b ↔ a.toNat = b.toNat := by
  constructor
  · intro h; rw [h]
  · intro h; exact Char.eq_of_val_eq (UInt32.eq_of_val_eq (Fin.eq_of_val_eq h))

/-- Code-point reading of the digit test. -/
theorem isDigitChar_iff (c : Char) :
    isDigitChar c = true ↔ 48 ≤ c.toNat ∧ c.toNat ≤ 57 := by
  simp only [isDigitChar, decide_eq_true_eq, char_le_iff]
  exact Iff.rfl

/-- Code-point reading of the whitespace test. -/
theorem jsIsSpace_iff (c : Char) :
    jsIsSpace c = true ↔
      c.toNat = 32 ∨ c.toNat = 9 ∨ c.toNat = 10 ∨ c.toNat = 13 ∨ c.toNat = 11 ∨
      c.toNat = 12 ∨ c.toNat = 160 := by
  simp only [jsIsSpace, Bool.or_eq_true, beq_iff_eq, char_eq_iff]
  rw [show (' ' : Char).toNat = 32 from rfl, show ('\t' : Char).toNat = 9 from rfl,
      show ('\n' : Char).toNat = 10 from rfl, show ('\x0d' : Char).toNat = 13 from rfl,
      show ('\x0b' : Char).toNat = 11 from rfl, show ('\x0c' : Char).toNat = 12 from rfl,
      show ('\u00a0' : Char).toNat = 160 from rfl]
  tauto

/-- Lower-casing leaves a character outside both uppercase ranges
    unchanged. -/
theorem jsToLower_eq_self (c : Char)
    (h : c.toNat < 65 ∨ (90 < c.toNat ∧ c.toNat < 192) ∨ 222 < c.toNat) :
    jsToLower c = c := by
  unfold jsToLower
  rw [if_neg, if_neg]
  · rintro ⟨h1, h2, -⟩
    rw [char_le_iff] at h1 h2
    revert h1 h2
    show 192 ≤ c.toNat → c.toNat ≤ 222 → False
    omega
  · rintro ⟨h1, h2⟩
    rw [char_le_iff] at h1 h2
    revert h1 h2
    show 65 ≤ c.toNat → c.toNat ≤ 90 → False
    omega

/-- Decimal digits are left unchanged by lower-casing. -/
theorem jsToLower_digit (c : Char) (h : isDigitChar c = true) : jsToLower c = c := by
  rw [isDigitChar_iff] at h
  exact jsToLower_eq_self c (by omega)

/-- Decimal digits are neither whitespace nor a hyphen, so the strip of
    the source keeps them. -/
theorem strip_keeps_digit (c : Char) (h : isDigitChar c = true) :
    (!(jsIsSpace c || c == '-')) = true := by
  rw [isDigitChar_iff] at h
  simp only [Bool.not_eq_true', Bool.or_eq_false_iff, beq_eq_false_iff_ne, ne_eq, char_eq_iff]
  constructor
  · rw [← Bool.not_eq_true, jsIsSpace_iff]
    omega
  · show ¬ c.toNat = 45
    omega

/-- Whitespace characters and the hyphen are left unchanged by
    lower-casing. -/
theorem jsToLower_space_dash (c : Char) (h : jsIsSpace c = true ∨ c = '-') :
    jsToLower c = c := by
  refine jsToLower_eq_self c ?_
  rcases h with h | h
  · rw [jsIsSpace_iff] at h
    omega
  · rw [char_eq_iff] at h
    revert h
    show c.toNat = 45 → _
    omega

/-- Characters of the separator middle are dropped by the strip of the
    source. -/
theorem strip_drops_space_dash (c : Char) (h : jsIsSpace c = true ∨ c = '-') :
    (!(jsIsSpace c || c == '-')) = false := by
  rcases h with h | h
  · simp [h]
  · subst h; simp
/-- A case-insensitive literal match lower-cases to the literal. -/
theorem startsWithCI_map_toLower :
    ∀ (pat s : Str), startsWithCI s pat = true →
      (s.take pat.length).map jsToLower = pat := by
  intro pat
  induction pat with
  | nil => intro s _; simp
  | cons p ps ih =>
    intro s h
    cases s with
    | nil => simp [startsWithCI] at h
    | cons c s2 =>
      simp only [startsWithCI, Bool.and_eq_true, beq_iff_eq] at h
      simp only [List.length_cons, List.take_succ_cons, List.map_cons, h.1]
      exact congrArg (p :: ·) (ih s2 h.2)

/-- Consumption form of the case-insensitive literal match. -/
theorem takeLitCI_eq_some (pat s a r : Str) (h : takeLitCI pat s = some (a, r)) :
    a.map jsToLower = pat ∧ a = s.take pat.length ∧ r = s.drop pat.length := by
  unfold takeLitCI at h
  split_ifs at h with hs
  · obtain ⟨rfl, rfl⟩ : s.take pat.length = a ∧ s.drop pat.length = r := by
      simpa using h
    exact ⟨startsWithCI_map_toLower pat s hs, rfl, rfl⟩

/-- Every character the hyphen reader consumes is a hyphen. -/
theorem dashSplit_fst (r : Str) (c : Char) (h : c ∈ (dashSplit r).1) : c = '-' := by
  cases r with
  | nil => simp [dashSplit] at h
  | cons c0 rr =>
    by_cases hc0 : c0 == '-'
    · simp [dashSplit, hc0] at h
      subst h
      simpa using hc0
    · simp [dashSplit, hc0] at h

/-- Structure of the separator-digits tail: the middle consists of
    whitespace and hyphens only, and the digit run is one to five decimal
    digits. -/
theorem tailSepDigits_spec (s mid ds : Str) (h : tailSepDigits s = some (mid, ds)) :
    (∀ c ∈ mid, jsIsSpace c = true ∨ c = '-') ∧
    (∀ c ∈ ds, isDigitChar c = true) ∧ 1 ≤ ds.length ∧ ds.length ≤ 5 := by
  simp only [tailSepDigits] at h
  split_ifs at h with hc
  have hpair := Option.some.inj h
  have hmid := congrArg Prod.fst hpair
  have hds := congrArg Prod.snd hpair
  simp only at hmid hds
  subst hmid
  subst hds
  refine ⟨?_, ?_, hc.1.1, hc.1.2⟩
  · intro c hcmem
    rcases List.mem_append.mp hcmem with hm | hm
    · rcases List.mem_append.mp hm with hm2 | hm2
      · exact Or.inl (List.mem_takeWhile_imp hm2)
      · exact Or.inr (dashSplit_fst _ c hm2)
    · exact Or.inl (List.mem_takeWhile_imp hm)
  · intro c hcmem
    exact List.mem_takeWhile_imp hcmem

/-- An alternation that succeeds does so through one of its branches. -/
theorem firstSome_eq_some {α β : Type} (f : α → Option β) :
    ∀ (l : List α) (b : β), firstSome f l = some b → ∃ a ∈ l, f a = some b := by
  intro l
  induction l with
  | nil => intro b h; simp [firstSome] at h
  | cons a rest ih =>
    intro b h
    cases hf : f a with
    | some b2 =>
      simp only [firstSome, hf] at h
      exact ⟨a, by simp, by rw [hf, h]⟩
    | none =>
      simp only [firstSome, hf] at h
      obtain ⟨a2, hmem, hfa⟩ := ih b h
      exact ⟨a2, by simp [hmem], hfa⟩

/-- A successful gaine-anchor scan comes from a successful match at some
    position. -/
theorem scanGaine_from_match :
    ∀ (s : Str) (prev : Bool) (cap : Str), scanGaine prev s = some cap →
      ∃ prev2 s2, matchGaineAt prev2 s2 = some cap := by
  intro s
  induction s with
  | nil => intro prev cap h; simp [scanGaine] at h
  | cons c rest ih =>
    intro prev cap h
    cases hm : matchGaineAt prev (c :: rest) with
    | some g =>
      simp only [scanGaine, hm] at h
      exact ⟨prev, c :: rest, by rw [hm, h]⟩
    | none =>
      simp only [scanGaine, hm] at h
      exact ih (isWordChar c) cap h

/-- A successful fallback-gaine scan comes from a successful match at some
    position. -/
theorem scanFallbackGaine_from_match :
    ∀ (s : Str) (prev : Bool) (res : Str × Str), scanFallbackGaine prev s = some res →
      ∃ prev2 s2, matchFallbackGaineAt prev2 s2 = some res := by
  intro s
  induction s with
  | nil => intro prev res h; simp [scanFallbackGaine] at h
  | cons c rest ih =>
    intro prev res h
    cases hm : matchFallbackGaineAt prev (c :: rest) with
    | some g =>
      simp only [scanFallbackGaine, hm] at h
      exact ⟨prev, c :: rest, by rw [hm, h]⟩
    | none =>
      simp only [scanFallbackGaine, hm] at h
      exact ih (isWordChar c) res h

/-- Structure of a successful gaine-anchor match: the capture is a
    case-insensitive prefix alternative followed by separator characters
    and one to five digits. -/
theorem matchGaineAt_spec (prev : Bool) (s cap : Str)
    (h : matchGaineAt prev s = some cap) :
    ∃ p ∈ gainePrefixes, ∃ a mid ds : Str,
      cap = a ++ mid ++ ds ∧ a.map jsToLower = p ∧
      (∀ c ∈ mid, jsIsSpace c = true ∨ c = '-') ∧
      (∀ c ∈ ds, isDigitChar c = true) ∧ 1 ≤ ds.length ∧ ds.length ≤ 5 := by
  by_cases hp : prev
  · simp [matchGaineAt, hp] at h
  · simp only [matchGaineAt, hp, if_false, Bool.false_eq_true] at h
    cases hde : takeLitCI (str "de") s with
    | none => rw [hde] at h; simp at h
    | some pr =>
      rw [hde] at h
      simp only at h
      split_ifs at h
      unfold matchGaineBody at h
      obtain ⟨p, hpmem, hf⟩ := firstSome_eq_some _ _ _ h
      cases hlit : takeLitCI p (pr.2.dropWhile jsIsSpace) with
      | none => rw [hlit] at hf; simp at hf
      | some ar =>
        rw [hlit] at hf
        simp only at hf
        cases htail : tailSepDigits ar.2 with
        | none => rw [htail] at hf; simp at hf
        | some md =>
          rw [htail] at hf
          simp only [Option.some.injEq] at hf
          obtain ⟨hmid, hds, hl1, hl2⟩ := tailSepDigits_spec ar.2 md.1 md.2 (by rw [htail])
          obtain ⟨hmap, -, -⟩ := takeLitCI_eq_some p _ ar.1 ar.2 (by rw [hlit])
          exact ⟨p, hpmem, ar.1, md.1, md.2, hf.symm, hmap, hmid, hds, hl1, hl2⟩

/-- Structure of a successful fallback-gaine match: the prefix group
    lower-cases to a prefix alternative and the digit group is one to
    five digits. -/
theorem matchFallbackGaineAt_spec (prev : Bool) (s : Str) (res : Str × Str)
    (h : matchFallbackGaineAt prev s = some res) :
    ∃ p ∈ fallbackGainePrefixes, res.1.map jsToLower = p ∧
      (∀ c ∈ res.2, isDigitChar c = true) ∧ 1 ≤ res.2.length ∧ res.2.length ≤ 5 := by
  by_cases hp : prev
  · simp [matchFallbackGaineAt, hp] at h
  · simp only [matchFallbackGaineAt, hp, if_false, Bool.false_eq_true] at h
    obtain ⟨p, hpmem, hf⟩ := firstSome_eq_some _ _ _ h
    cases hlit : takeLitCI p s with
    | none => rw [hlit] at hf; simp at hf
    | some ar =>
      rw [hlit] at hf
      simp only at hf
      cases htail : tailSepDigits ar.2 with
      | none => rw [htail] at hf; simp at hf
      | some md =>
        rw [htail] at hf
        simp only [Option.some.injEq] at hf
        obtain ⟨-, hds, hl1, hl2⟩ := tailSepDigits_spec ar.2 md.1 md.2 (by rw [htail])
        obtain ⟨hmap, -, -⟩ := takeLitCI_eq_some p _ ar.1 ar.2 (by rw [hlit])
        rw [← hf]
        exact ⟨p, hpmem, hmap, hds, hl1, hl2⟩

/-- Every fallback prefix alternative is one of the four prefixes. -/
theorem fallback_mem_gaine (p : Str) (h : p ∈ fallbackGainePrefixes) :
    p ∈ gainePrefixes := by
  simp only [fallbackGainePrefixes, List.mem_cons, List.not_mem_nil, or_false] at h
  simp only [gainePrefixes, List.mem_cons, List.not_mem_nil, or_false]
  tauto

/-- Lower-casing then stripping a gaine capture leaves exactly the prefix
    and the digits. -/
theorem strip_gaine_capture (p a mid ds : Str) (hp : p ∈ gainePrefixes)
    (ha : a.map jsToLower = p)
    (hmid : ∀ c ∈ mid, jsIsSpace c = true ∨ c = '-')
    (hds : ∀ c ∈ ds, isDigitChar c = true) :
    stripSpaceDash ((a ++ mid ++ ds).map jsToLower) = p ++ ds := by
  unfold stripSpaceDash
  rw [List.map_append, List.map_append, List.filter_append, List.filter_append]
  have h1 : (a.map jsToLower).filter (fun c => !(jsIsSpace c || c == '-')) = p := by
    rw [ha]
    simp only [gainePrefixes, List.mem_cons, List.not_mem_nil, or_false] at hp
    rcases hp with rfl | rfl | rfl | rfl <;> decide
  have h2 : (mid.map jsToLower).filter (fun c => !(jsIsSpace c || c == '-')) = [] := by
    rw [List.filter_eq_nil_iff]
    intro c hc
    obtain ⟨c0, hc0, rfl⟩ := List.mem_map.mp hc
    rw [jsToLower_space_dash c0 (hmid c0 hc0)]
    simp only [Bool.not_eq_true]
    rw [← Bool.not_eq_true]
    simp [strip_drops_space_dash c0 (hmid c0 hc0)]
  have h3 : (ds.map jsToLower).filter (fun c => !(jsIsSpace c || c == '-')) = ds := by
    have hm : ds.map jsToLower = ds := by
      rw [List.map_congr_left (fun c hc => jsToLower_digit c (hds c hc))]
      exact List.map_id ds
    rw [hm]
    exact List.filter_eq_self.mpr (fun c hc => strip_keeps_digit c (hds c hc))
  rw [h1, h2, h3]
  simp

/-- Claim C3.  Every gaine value produced by the anchor path, the fallback
    path or the model normalization is one of the four lower-case prefixes
    immediately followed by one to five digits, with no whitespace and no
    hyphen. -/
theorem c3_gaine_value_invariant :
    (∀ (text : Str) (q : StructuredQuery) (g : Gaine),
       extractByAnchors text = some q → q.gaine = some g → IsValidGaineValue g.value) ∧
    (∀ (t : Str) (g : Gaine), extractGaine t = some g → IsValidGaineValue g.value) ∧
    (∀ (v : Option Str) (s : Str), normalizeGaineValue v = some s → IsValidGaineValue s) := by
  refine ⟨?_, ?_, ?_⟩
  · intro text q g hq hg
    cases h1 : scanIntent false (normKeepAccents text) with
    | none => simp [extractByAnchors, h1] at hq
    | some kw =>
      cases h2 : scanGaine false (normKeepAccents text) with
      | none => simp [extractByAnchors, h1, h2] at hq
      | some cap =>
        have hqe : q = ⟨some (intentOfKeyword (kw.map jsToLower)),
            some ⟨stripSpaceDash (cap.map jsToLower)⟩,
            anchorsTime (normKeepAccents text)⟩ := by
          have := hq.symm.trans (by simp [extractByAnchors, h1, h2] :
            extractByAnchors text = some ⟨some (intentOfKeyword (kw.map jsToLower)),
              some ⟨stripSpaceDash (cap.map jsToLower)⟩,
              anchorsTime (normKeepAccents text)⟩)
          exact Option.some.inj this
        subst hqe
        simp only [Option.some.injEq] at hg
        subst hg
        obtain ⟨prev2, s2, hm⟩ := scanGaine_from_match _ _ _ h2
        obtain ⟨p, hpmem, a, mid, ds, hcap, hmap, hmid, hds, hl1, hl2⟩ :=
          matchGaineAt_spec prev2 s2 cap hm
        refine ⟨p, ds, hpmem, ?_, hds, hl1, hl2⟩
        show stripSpaceDash (cap.map jsToLower) = p ++ ds
        rw [hcap]
        exact strip_gaine_capture p a mid ds hpmem hmap hmid hds
  · intro t g hg
    cases h1 : scanFallbackGaine false t with
    | none => simp [extractGaine, h1] at hg
    | some pr =>
      have hge : g = ⟨pr.1.map jsToLower ++ pr.2⟩ := by
        have := hg.symm.trans (by simp [extractGaine, h1] :
          extractGaine t = some ⟨pr.1.map jsToLower ++ pr.2⟩)
        exact Option.some.inj this
      subst hge
      obtain ⟨prev2, s2, hm⟩ := scanFallbackGaine_from_match _ _ _ h1
      obtain ⟨p, hpmem, hmap, hds, hl1, hl2⟩ := matchFallbackGaineAt_spec prev2 s2 pr hm
      exact ⟨p, pr.2, fallback_mem_gaine p hpmem, by rw [hmap], hds, hl1, hl2⟩
  · intro v s hs
    cases v with
    | none => simp [normalizeGaineValue] at hs
    | some v0 =>
      by_cases hv : v0 = []
      · simp [normalizeGaineValue, hv] at hs
      · simp only [normalizeGaineValue, hv, if_neg, if_false] at hs
        obtain ⟨p, hpmem, hf⟩ := firstSome_eq_some _ _ _ hs
        by_cases hpre : p.isPrefixOf (stripSpaceDash (v0.map jsToLower))
        · rw [if_pos hpre] at hf
          split_ifs at hf with hcond
          simp only [Option.some.injEq] at hf
          refine ⟨p, stripSpaceDash (v0.map jsToLower) |>.drop p.length, hpmem, hf.symm,
            ?_, hcond.1.1, hcond.1.2⟩
          intro c hc
          exact List.all_eq_true.mp hcond.2 c hc
        · rw [if_neg hpre] at hf
          simp at hf

/-- Witness for claim C3: valid values produced by the three paths at
    concrete inputs. -/
theorem c3_witness :
    IsValidGaineValue (str "gsb11") ∧ IsValidGaineValue (str "gs44") ∧
    IsValidGaineValue (str "gab7") :=
  ⟨c3_gaine_value_invariant.1 (str "les sorties de gsb11")
      ⟨some Intent.sorties, some ⟨str "gsb11"⟩, TimeSpec.unspecified⟩ ⟨str "gsb11"⟩
      (by decide) rfl,
   c3_gaine_value_invariant.2.1 (str "niveau GS 44 merci") ⟨str "gs44"⟩ (by decide),
   c3_gaine_value_invariant.2.2 (some (str "GAB-7")) (str "gab7") (by decide)⟩

/-- Separators are left unchanged by lower-casing. -/
theorem jsToLower_sep (c : Char) (h : isSepChar c = true) : jsToLower c = c := by
  simp only [isSepChar, Bool.or_eq_true, beq_iff_eq] at h
  rcases h with rfl | rfl <;> decide

/-- Digits and separators are not whitespace. -/
theorem digit_or_sep_not_space (c : Char)
    (h : isDigitChar c = true ∨ isSepChar c = true) : jsIsSpace c = false := by
  rw [← Bool.not_eq_true, jsIsSpace_iff]
  rcases h with h | h
  · rw [isDigitChar_iff] at h
    omega
  · simp only [isSepChar, Bool.or_eq_true, beq_iff_eq, char_eq_iff] at h
    rw [show ('/' : Char).toNat = 47 from rfl, show ('-' : Char).toNat = 45 from rfl] at h
    omega

/-- Digits and separators are left unchanged by lower-casing. -/
theorem digit_or_sep_toLower (c : Char)
    (h : isDigitChar c = true ∨ isSepChar c = true) : jsToLower c = c := by
  rcases h with h | h
  · exact jsToLower_digit c h
  · exact jsToLower_sep c h

/-- Structure of a numeric date token: digit-run bounds, the two
    separators, and the closing digit run spanning the rest. -/
theorem numericToken_parts (s : Str) (h : isNumericDateToken s = true) :
    1 ≤ (s.takeWhile isDigitChar).length ∧ (s.takeWhile isDigitChar).length ≤ 2 ∧
    ∃ c1 s1, s.dropWhile isDigitChar = c1 :: s1 ∧ isSepChar c1 = true ∧
      1 ≤ (s1.takeWhile isDigitChar).length ∧ (s1.takeWhile isDigitChar).length ≤ 2 ∧
      ∃ c2 s2, s1.dropWhile isDigitChar = c2 :: s2 ∧ isSepChar c2 = true ∧
        2 ≤ (s2.takeWhile isDigitChar).length ∧ (s2.takeWhile isDigitChar).length ≤ 4 ∧
        s2.dropWhile isDigitChar = [] := by
  unfold isNumericDateToken at h
  cases h1 : s.dropWhile isDigitChar with
  | nil => rw [h1] at h; simp at h
  | cons c1 s1 =>
    rw [h1] at h
    simp only at h
    cases h2 : s1.dropWhile isDigitChar with
    | nil => rw [h2] at h; simp at h
    | cons c2 s2 =>
      rw [h2] at h
      simp only [Bool.and_eq_true, decide_eq_true_eq] at h
      obtain ⟨⟨⟨⟨⟨hr1, hc1⟩, hr2⟩, hc2⟩, hr3⟩, hrest⟩ := h
      exact ⟨hr1.1, hr1.2, c1, s1, rfl, hc1, hr2.1, hr2.2, c2, s2, h2, hc2,
             hr3.1, hr3.2, by simpa using hrest⟩

/-- Every character of a numeric date token is a digit or a separator. -/
theorem numericToken_chars (s : Str) (h : isNumericDateToken s = true) :
    ∀ c ∈ s, isDigitChar c = true ∨ isSepChar c = true := by
  obtain ⟨-, -, c1, s1, h1, hc1, -, -, c2, s2, h2, hc2, -, -, hrest⟩ :=
    numericToken_parts s h
  intro c hc
  rw [← List.takeWhile_append_dropWhile (p := isDigitChar) (l := s), h1] at hc
  rcases List.mem_append.mp hc with hm | hm
  · exact Or.inl (List.mem_takeWhile_imp hm)
  · rcases List.mem_cons.mp hm with rfl | hm2
    · exact Or.inr hc1
    · rw [← List.takeWhile_append_dropWhile (p := isDigitChar) (l := s1), h2] at hm2
      rcases List.mem_append.mp hm2 with hm3 | hm3
      · exact Or.inl (List.mem_takeWhile_imp hm3)
      · rcases List.mem_cons.mp hm3 with rfl | hm4
        · exact Or.inr hc2
        · rw [← List.takeWhile_append_dropWhile (p := isDigitChar) (l := s2)] at hm4
          rcases List.mem_append.mp hm4 with hm5 | hm5
          · exact Or.inl (List.mem_takeWhile_imp hm5)
          · rw [hrest] at hm5; simp at hm5

/-- Whitespace collapsing is the identity on whitespace-free text. -/
theorem collapseWsGo_id (s : Str) (h : ∀ c ∈ s, jsIsSpace c = false) :
    collapseWsGo false s = s := by
  induction s with
  | nil => rfl
  | cons c rest ih =>
    rw [collapseWsGo]
    rw [h c (by simp)]
    simp only [Bool.false_eq_true, if_false]
    exact congrArg (c :: ·) (ih (fun c2 hc2 => h c2 (by simp [hc2])))

/-- Trimming is the identity on whitespace-free text. -/
theorem jsTrim_id (s : Str) (h : ∀ c ∈ s, jsIsSpace c = false) : jsTrim s = s := by
  have hdrop : ∀ (l : Str), (∀ c ∈ l, jsIsSpace c = false) → l.dropWhile jsIsSpace = l := by
    intro l hl
    cases l with
    | nil => rfl
    | cons c rest =>
      rw [List.dropWhile_cons]
      rw [hl c (by simp)]
      simp
  unfold jsTrim
  rw [hdrop s h, hdrop s.reverse (fun c hc => h c (List.mem_reverse.mp hc)), List.reverse_reverse]

/-- The infix-le replacement is the identity on whitespace-free text. -/
theorem replaceLeGo_id (s : Str) (h : ∀ c ∈ s, jsIsSpace c = false) :
    replaceLeGo s = s := by
  induction s using replaceLeGo.induct with
  | case1 => rfl
  | case2 c d r3 hcd ih =>
    rw [replaceLeGo] at *
    exact absurd (h c (by simp)) (by simp [hcd.1])
  | case3 c d r3 hcd ih =>
    rw [replaceLeGo]
    simp only [hcd, if_false]
    exact congrArg (c :: ·) (ih (fun c2 hc2 => h c2 (by simp [hc2])))
  | case4 c rest hne ih =>
    rw [replaceLeGo]
    · exact congrArg (c :: ·) (ih (fun c2 hc2 => h c2 (by simp [hc2])))
    · exact hne

/-- The leading digit run of a canonical date string has length four. -/
theorem canonicalYmd_takeWhile_length (s : Str) (h : isCanonicalYmd s = true) :
    (s.takeWhile isDigitChar).length = 4 := by
  unfold isCanonicalYmd at h
  split at h
  next a b c d h1 e2 f2 h2 g2 k2 =>
    simp only [Bool.and_eq_true, beq_iff_eq] at h
    obtain ⟨⟨⟨⟨⟨⟨⟨⟨⟨ha, hb⟩, hc⟩, hd⟩, hh1⟩, he⟩, hf⟩, hh2⟩, hg⟩, hk⟩ := h
    subst hh1
    simp [List.takeWhile_cons, ha, hb, hc, hd, show isDigitChar '-' = false from by decide]
  next => simp at h

/-- A numeric date token never matches the canonical form: its leading
    digit run has length at most two. -/
theorem numericToken_not_canonical (s : Str) (h : isNumericDateToken s = true) :
    isCanonicalYmd s = false := by
  by_contra hcon
  rw [Bool.not_eq_false] at hcon
  have h4 := canonicalYmd_takeWhile_length s hcon
  obtain ⟨-, h2, -⟩ := numericToken_parts s h
  omega

/-- Claim C10.  On every token matching the numeric date pattern, the
    inline conversion duplicated in extractTime computes exactly what
    parseFrenchDatePhrase returns for that token: the resolver
    preprocessing is the identity on such tokens, the canonical branch
    never fires, and the two duplicated conversion bodies are the same
    function. -/
theorem c10_numeric_inline_equiv :
    ∀ s : Str, isNumericDateToken s = true →
      parseFrenchDatePhrase s = some (fallbackNumericDate s) ∧
      fallbackNumericDate s = parseNumericDate s := by
  intro s h
  have heq : fallbackNumericDate s = parseNumericDate s := rfl
  refine ⟨?_, heq⟩
  have hchars := numericToken_chars s h
  have hnospace : ∀ c ∈ s, jsIsSpace c = false :=
    fun c hc => digit_or_sep_not_space c (hchars c hc)
  have hne : s ≠ [] := by
    intro he
    rw [he] at h
    exact absurd h (by decide)
  have hmap : s.map jsToLower = s := by
    rw [List.map_congr_left (fun c hc => digit_or_sep_toLower c (hchars c hc))]
    exact List.map_id s
  have hnorm : normKeepAccents s = s := by
    unfold normKeepAccents collapseWs
    rw [hmap, collapseWsGo_id s hnospace, jsTrim_id s hnospace]
  have hrep : replaceLeGo s = s := replaceLeGo_id s hnospace
  have hcanon := numericToken_not_canonical s h
  unfold parseFrenchDatePhrase
  rw [if_neg hne]
  rw [heq]
  simp only [hnorm, hrep, jsTrim_id s hnospace, hcanon, h]
  simp

/-- Witness for claim C10 at the token of spec scenario one. -/
theorem c10_witness :
    parseFrenchDatePhrase (str "01-10-2025") =
      some (fallbackNumericDate (str "01-10-2025")) ∧
    fallbackNumericDate (str "01-10-2025") = str "2025-10-01" :=
  ⟨(c10_numeric_inline_equiv (str "01-10-2025") (by decide)).1, by decide⟩

/-- Counterexample to claim C4 as stated: the resolver does not always
    return an ISO calendar-date string.  A numeric token with a three
    digit year is echoed with a three digit year; a numeric token mixing
    its two separators drops the year slot entirely, producing the text
    undefined in place of the year; and the month word constructor hits
    the property the lookup object inherits from the object prototype, a
    truthy function whose source text is spliced in as the month part.
    None of the three outputs has the four digit year ISO shape the
    specification calls canonical. -/
theorem c4_counterexample :
    parseFrenchDatePhrase (str "1/1/999") = some (str "999-01-01") ∧
    parseFrenchDatePhrase (str "1/2-2025") = some (str "undefined-02-01") ∧
    parseFrenchDatePhrase (str "15 constructor 2025") =
      some (str "2025-function Object() \x7b [native code] \x7d-15") ∧
    isCanonicalYmd (str "999-01-01") = false ∧
    isCanonicalYmd (str "undefined-02-01") = false ∧
    isCanonicalYmd (str "2025-function Object() \x7b [native code] \x7d-15") = false := by
  refine ⟨?_, ?_, ?_, ?_, ?_, ?_⟩ <;> decide

/-- A digit character rendered by digitChar. -/
theorem digitChar_is_digit (k : Nat) : isDigitChar (digitChar k) = true := by
  unfold digitChar
  split_ifs <;> decide

/-- The rendering worker yields only digits and at least one of them. -/
theorem natToStrGo_digits :
    ∀ (fuel n : Nat), n < fuel →
      (∀ c ∈ natToStrGo fuel n, isDigitChar c = true) ∧
      1 ≤ (natToStrGo fuel n).length := by
  intro fuel
  induction fuel with
  | zero => intro n h; omega
  | succ f ih =>
    intro n h
    rw [natToStrGo]
    by_cases h10 : n < 10
    · rw [if_pos h10]
      refine ⟨?_, by simp⟩
      intro c hc
      rw [List.mem_singleton.mp hc]
      exact digitChar_is_digit n
    · rw [if_neg h10]
      obtain ⟨ihd, ihl⟩ := ih (n / 10) (by omega)
      refine ⟨?_, by simp⟩
      intro c hc
      rcases List.mem_append.mp hc with hm | hm
      · exact ihd c hm
      · rw [List.mem_singleton.mp hm]
        exact digitChar_is_digit (n % 10)

/-- Digit-count bound of the rendering worker: below ten to the k the
    rendering has at most k digits. -/
theorem natToStrGo_length_le :
    ∀ (k fuel n : Nat), n < fuel → n < 10 ^ k → 1 ≤ k →
      (natToStrGo fuel n).length ≤ k := by
  intro k
  induction k with
  | zero => intro fuel n _ _ hk; omega
  | succ k2 ih =>
    intro fuel n hfuel hpow _
    cases fuel with
    | zero => omega
    | succ f =>
      rw [natToStrGo]
      by_cases h10 : n < 10
      · rw [if_pos h10]; simp
      · rw [if_neg h10]
        have hk2 : 1 ≤ k2 := by
          by_contra hcon
          have : k2 = 0 := by omega
          rw [this] at hpow
          simp at hpow
          omega
        have : (natToStrGo f (n / 10)).length ≤ k2 := by
          refine ih f (n / 10) (by omega) ?_ hk2
          have : 10 ^ (k2 + 1) = 10 ^ k2 * 10 := by ring
          omega
        simp only [List.length_append, List.length_singleton]
        omega

/-- Character content and length bounds of the decimal rendering. -/
theorem natToStr_spec (n : Nat) (h : n < 10000) :
    (∀ c ∈ natToStr n, isDigitChar c = true) ∧
    1 ≤ (natToStr n).length ∧ (natToStr n).length ≤ 4 := by
  obtain ⟨hd, hl⟩ := natToStrGo_digits (n + 1) n (by omega)
  exact ⟨hd, hl, natToStrGo_length_le 4 (n + 1) n (by omega) (by omega) (by omega)⟩

/-- pad2 of a value below ten thousand: only digits, two to four of
    them. -/
theorem pad2_spec (n : Nat) (h : n < 10000) :
    (∀ c ∈ pad2 n, isDigitChar c = true) ∧
    2 ≤ (pad2 n).length ∧ (pad2 n).length ≤ 4 := by
  obtain ⟨hd, hl1, hl4⟩ := natToStr_spec n h
  unfold pad2
  by_cases hlen : (natToStr n).length < 2
  · rw [if_pos hlen]
    refine ⟨?_, by simp; omega, by simp; omega⟩
    intro c hc
    rcases List.mem_cons.mp hc with rfl | hm
    · decide
    · exact hd c hm
  · rw [if_neg hlen]
    exact ⟨hd, by omega, hl4⟩

/-- pad2 of a value below one hundred: exactly two digits. -/
theorem pad2_spec2 (n : Nat) (h : n < 100) :
    (∀ c ∈ pad2 n, isDigitChar c = true) ∧ (pad2 n).length = 2 := by
  obtain ⟨hd, hl1, -⟩ := natToStr_spec n (by omega)
  have hl2 : (natToStr n).length ≤ 2 :=
    natToStrGo_length_le 2 (n + 1) n (by omega) (by omega) (by omega)
  unfold pad2
  by_cases hlen : (natToStr n).length < 2
  · rw [if_pos hlen]
    refine ⟨?_, by simp; omega⟩
    intro c hc
    rcases List.mem_cons.mp hc with rfl | hm
    · decide
    · exact hd c hm
  · rw [if_neg hlen]
    exact ⟨hd, by omega⟩

/-- Value bound of a digit run: a run of k digits is below ten to the
    k. -/
theorem digitsToNat_lt (ds : Str) (h : ∀ c ∈ ds, isDigitChar c = true) :
    digitsToNat ds < 10 ^ ds.length := by
  have key : ∀ (l : Str) (acc : Nat), (∀ c ∈ l, isDigitChar c = true) →
      l.foldl (fun a c => a * 10 + digitVal c) acc < (acc + 1) * 10 ^ l.length := by
    intro l
    induction l with
    | nil => intro acc _; simp
    | cons c rest ih =>
      intro acc hall
      have hdv : digitVal c ≤ 9 := by
        have := hall c (by simp)
        rw [isDigitChar_iff] at this
        unfold digitVal
        rw [show ('0' : Char).toNat = 48 from rfl]
        omega
      have := ih (acc * 10 + digitVal c) (fun c2 hc2 => hall c2 (by simp [hc2]))
      simp only [List.foldl_cons, List.length_cons]
      calc rest.foldl (fun a c => a * 10 + digitVal c) (acc * 10 + digitVal c)
          < (acc * 10 + digitVal c + 1) * 10 ^ rest.length := this
        _ ≤ (acc + 1) * 10 ^ (rest.length + 1) := by
            have hp : 0 < 10 ^ rest.length := Nat.pos_pow_of_pos rest.length (by omega)
            have : (acc * 10 + digitVal c + 1) ≤ (acc + 1) * 10 := by omega
            calc (acc * 10 + digitVal c + 1) * 10 ^ rest.length
                ≤ (acc + 1) * 10 * 10 ^ rest.length :=
                  Nat.mul_le_mul_right _ this
              _ = (acc + 1) * 10 ^ (rest.length + 1) := by ring
  have := key ds 0 h
  simpa using this

/-- A nonempty digit run parses to its value. -/
theorem jsParseInt_digits (ds : Str) (hne : ds ≠ [])
    (h : ∀ c ∈ ds, isDigitChar c = true) :
    jsParseInt ds = some (digitsToNat ds) := by
  unfold jsParseInt
  rw [List.takeWhile_eq_self_iff.mpr h]
  cases ds with
  | nil => exact absurd rfl hne
  | cons c rest => rfl

/-- takeWhile and dropWhile through an append whose left part satisfies
    the predicate and whose joint fails it. -/
theorem takeWhile_append_stop (p : Char → Bool) (xs : Str) (y : Char) (rest : Str)
    (hxs : ∀ c ∈ xs, p c = true) (hy : p y = false) :
    (xs ++ y :: rest).takeWhile p = xs ∧ (xs ++ y :: rest).dropWhile p = y :: rest := by
  induction xs with
  | nil =>
    simp only [List.nil_append]
    rw [List.takeWhile_cons, List.dropWhile_cons, hy]
    simp
  | cons c xs2 ih =>
    have hc : p c = true := hxs c (by simp)
    obtain ⟨ih1, ih2⟩ := ih (fun c2 hc2 => hxs c2 (by simp [hc2]))
    simp only [List.cons_append]
    rw [List.takeWhile_cons, List.dropWhile_cons, hc]
    simp only [if_true]
    exact ⟨by rw [ih1], by rw [ih2]⟩

/-- The builder of the loose shape: digits-or-undefined year, a month
    part that is two to four digits or the stringified constructor
    function, two digit day. -/
theorem loose_of_parts (ypart mpart dpart : Str)
    (hy : ((1 ≤ ypart.length ∧ ypart.length ≤ 4) ∧ ∀ c ∈ ypart, isDigitChar c = true) ∨
      ypart = str "undefined")
    (hm : ((∀ c ∈ mpart, isDigitChar c = true) ∧ 2 ≤ mpart.length ∧ mpart.length ≤ 4) ∨
      mpart = str "function Object() \x7b [native code] \x7d")
    (hdd : ∀ c ∈ dpart, isDigitChar c = true) (hd2 : dpart.length = 2) :
    looseDateShape (ypart ++ [ '-' ] ++ mpart ++ [ '-' ] ++ dpart) = true := by
  have hynodash : ∀ c ∈ ypart, (!(c == '-')) = true := by
    intro c hc
    rcases hy with ⟨-, hdig⟩ | rfl
    · have := hdig c hc
      rw [isDigitChar_iff] at this
      simp only [Bool.not_eq_true', beq_eq_false_iff_ne, ne_eq, char_eq_iff]
      rw [show ('-' : Char).toNat = 45 from rfl]
      omega
    · revert c
      decide
  have hmnodash : ∀ c ∈ mpart, (!(c == '-')) = true := by
    intro c hc
    rcases hm with ⟨hdig, -⟩ | rfl
    · have := hdig c hc
      rw [isDigitChar_iff] at this
      simp only [Bool.not_eq_true', beq_eq_false_iff_ne, ne_eq, char_eq_iff]
      rw [show ('-' : Char).toNat = 45 from rfl]
      omega
    · revert c
      decide
  have hshape : ypart ++ [ '-' ] ++ mpart ++ [ '-' ] ++ dpart =
      ypart ++ ('-' :: (mpart ++ ('-' :: dpart))) := by simp
  rw [hshape]
  obtain ⟨ht1, hd1⟩ := takeWhile_append_stop (fun c => !(c == '-')) ypart '-'
    (mpart ++ ('-' :: dpart)) hynodash (by decide)
  obtain ⟨ht2, hd2b⟩ := takeWhile_append_stop (fun c => !(c == '-')) mpart '-' dpart
    hmnodash (by decide)
  unfold looseDateShape
  rw [ht1, hd1]
  simp only []
  rw [ht2, hd2b]
  simp only [Bool.and_eq_true, Bool.or_eq_true, decide_eq_true_eq]
  refine ⟨?_, ?_, List.all_eq_true.mpr hdd, hd2⟩
  · rcases hy with ⟨⟨hy1, hy4⟩, hdig⟩ | rfl
    · exact Or.inl ⟨⟨hy1, hy4⟩, List.all_eq_true.mpr hdig⟩
    · right; decide
  · rcases hm with ⟨hdig, hm2, hm4⟩ | rfl
    · exact Or.inl ⟨⟨hm2, hm4⟩, List.all_eq_true.mpr hdig⟩
    · right; decide

/-- The canonical form satisfies the loose shape. -/
theorem canonical_loose (s : Str) (h : isCanonicalYmd s = true) :
    looseDateShape s = true := by
  unfold isCanonicalYmd at h
  split at h
  next a b c d h1 e2 f2 h2 g2 k2 =>
    simp only [Bool.and_eq_true, beq_iff_eq] at h
    obtain ⟨⟨⟨⟨⟨⟨⟨⟨⟨ha, hb⟩, hc⟩, hd⟩, hh1⟩, he⟩, hf⟩, hh2⟩, hg⟩, hk⟩ := h
    subst hh1
    subst hh2
    have : ([a, b, c, d] ++ [ '-' ] ++ [e2, f2] ++ [ '-' ] ++ [g2, k2] :
        Str) = [a, b, c, d, '-', e2, f2, '-', g2, k2] := by simp
    rw [← this]
    apply loose_of_parts
    · left
      refine ⟨by simp, ?_⟩
      intro x hx
      rcases List.mem_cons.mp hx with rfl | hx
      · exact ha
      rcases List.mem_cons.mp hx with rfl | hx
      · exact hb
      rcases List.mem_cons.mp hx with rfl | hx
      · exact hc
      rcases List.mem_cons.mp hx with rfl | hx
      · exact hd
      simp at hx
    · left
      refine ⟨?_, by simp, by simp⟩
      intro x hx
      rcases List.mem_cons.mp hx with rfl | hx
      · exact he
      rcases List.mem_cons.mp hx with rfl | hx
      · exact hf
      simp at hx
    · intro x hx
      rcases List.mem_cons.mp hx with rfl | hx
      · exact hg
      rcases List.mem_cons.mp hx with rfl | hx
      · exact hk
      simp at hx
    · simp
  next => simp at h

/-- Splitting walks over separator-free text accumulating it. -/
theorem splitOnCharGo_no_sep (sep : Char) (xs : Str) :
    ∀ (acc rest : Str), (∀ c ∈ xs, (c == sep) = false) →
      splitOnCharGo sep acc (xs ++ rest) = splitOnCharGo sep (xs.reverse ++ acc) rest := by
  induction xs with
  | nil => intro acc rest _; simp
  | cons c xs2 ih =>
    intro acc rest hall
    simp only [List.cons_append, splitOnCharGo]
    rw [hall c (by simp)]
    simp only [Bool.false_eq_true, if_false]
    show splitOnCharGo sep (c :: acc) (xs2 ++ rest) =
      splitOnCharGo sep ((c :: xs2).reverse ++ acc) rest
    rw [ih (c :: acc) rest (fun c2 hc2 => hall c2 (by simp [hc2]))]
    simp

/-- Splitting at a separator closes the current piece. -/
theorem splitOnCharGo_hit (sep : Char) (acc rest : Str) :
    splitOnCharGo sep acc (sep :: rest) = acc.reverse :: splitOnCharGo sep [] rest := by
  rw [splitOnCharGo]
  simp

/-- Splitting separator-free text yields the single accumulated piece. -/
theorem splitOnCharGo_tail (sep : Char) (xs acc : Str)
    (h : ∀ c ∈ xs, (c == sep) = false) :
    splitOnCharGo sep acc xs = [acc.reverse ++ xs] := by
  have := splitOnCharGo_no_sep sep xs acc [] h
  rw [List.append_nil] at this
  rw [this, splitOnCharGo]
  simp

/-- Split of a two-piece decomposition. -/
theorem splitOnChar_two (sep : Char) (x y : Str)
    (hx : ∀ c ∈ x, (c == sep) = false) (hy : ∀ c ∈ y, (c == sep) = false) :
    splitOnChar sep (x ++ sep :: y) = [x, y] := by
  unfold splitOnChar
  rw [splitOnCharGo_no_sep sep x [] (sep :: y) hx, splitOnCharGo_hit,
      splitOnCharGo_tail sep y [] hy]
  simp

/-- Split of a three-piece decomposition. -/
theorem splitOnChar_three (sep : Char) (x y z : Str)
    (hx : ∀ c ∈ x, (c == sep) = false) (hy : ∀ c ∈ y, (c == sep) = false)
    (hz : ∀ c ∈ z, (c == sep) = false) :
    splitOnChar sep (x ++ sep :: (y ++ sep :: z)) = [x, y, z] := by
  unfold splitOnChar
  rw [splitOnCharGo_no_sep sep x [] _ hx, splitOnCharGo_hit,
      splitOnCharGo_no_sep sep y [] _ hy, splitOnCharGo_hit,
      splitOnCharGo_tail sep z [] hz]
  simp

/-- parseInt of a piece whose leading digit run is known. -/
theorem jsParseInt_of_takeWhile (l r : Str) (ht : l.takeWhile isDigitChar = r)
    (hne : r ≠ []) : jsParseInt l = some (digitsToNat r) := by
  unfold jsParseInt
  rw [ht]
  cases r with
  | nil => exact absurd rfl hne
  | cons c rest => rfl

/-- Shape of the numeric conversion when the chosen separator splits the
    token into three numeric pieces. -/
theorem parseNumericDate_loose3 (s r1 r2 r3 : Str) (sep : Char) (v1 v2 v3 : Nat)
    (hif : (if s.contains '/' then '/' else '-') = sep)
    (hsplit : splitOnChar sep s = [r1, r2, r3])
    (hp1 : jsParseInt r1 = some v1) (hp2 : jsParseInt r2 = some v2)
    (hp3 : jsParseInt r3 = some v3)
    (hv1 : v1 < 100) (hv2 : v2 < 100) (hv3 : v3 < 10000) :
    looseDateShape (parseNumericDate s) = true := by
  unfold parseNumericDate
  simp only [hif, hsplit, List.map_cons, List.map_nil, hp1, hp2, hp3, List.get?,
    slotStr, slotPad2]
  have hyv : (if v3 < 100 then v3 + 2000 else v3) < 10000 := by split_ifs <;> omega
  obtain ⟨hya, hyb, hyc⟩ := natToStr_spec _ hyv
  obtain ⟨hma, hmb⟩ := pad2_spec2 v2 hv2
  obtain ⟨hda, hdb⟩ := pad2_spec2 v1 hv1
  exact loose_of_parts _ _ _ (Or.inl ⟨⟨hyb, hyc⟩, hya⟩) (Or.inl ⟨hma, by omega, by omega⟩)
    hda hdb

/-- Shape of the numeric conversion when the chosen separator splits the
    token into only two pieces, dropping the year slot. -/
theorem parseNumericDate_loose2 (s p1 p2 : Str) (sep : Char) (v1 vm : Nat)
    (hif : (if s.contains '/' then '/' else '-') = sep)
    (hsplit : splitOnChar sep s = [p1, p2])
    (hp1 : jsParseInt p1 = some v1) (hp2 : jsParseInt p2 = some vm)
    (hv1 : v1 < 100) (hvm : vm < 10000) :
    looseDateShape (parseNumericDate s) = true := by
  unfold parseNumericDate
  simp only [hif, hsplit, List.map_cons, List.map_nil, hp1, hp2, List.get?,
    slotStr, slotPad2]
  obtain ⟨hma, hmb, hmc⟩ := pad2_spec vm hvm
  obtain ⟨hda, hdb⟩ := pad2_spec2 v1 hv1
  exact loose_of_parts _ _ _ (Or.inr rfl) (Or.inl ⟨hma, hmb, hmc⟩) hda hdb

/-- A digit run contains no occurrence of a non-digit character. -/
theorem digits_ne_char (l : Str) (hl : ∀ c ∈ l, isDigitChar c = true) (d : Char)
    (hd : isDigitChar d = false) : ∀ c ∈ l, (c == d) = false := by
  intro c hc
  simp only [beq_eq_false_iff_ne, ne_eq]
  intro he
  rw [← he] at hd
  rw [hl c hc] at hd
  simp at hd

/-- Shape of the numeric conversion on every numeric date token, across
    the four separator combinations. -/
theorem parseNumericDate_loose (s : Str) (h : isNumericDateToken s = true) :
    looseDateShape (parseNumericDate s) = true := by
  obtain ⟨hr1a, hr1b, c1, s1, h1, hc1, hr2a, hr2b, c2, s2, h2, hc2, hr3a, hr3b, hrest⟩ :=
    numericToken_parts s h
  have hd1 : ∀ c ∈ s.takeWhile isDigitChar, isDigitChar c = true :=
    fun c hc => List.mem_takeWhile_imp hc
  have hd2 : ∀ c ∈ s1.takeWhile isDigitChar, isDigitChar c = true :=
    fun c hc => List.mem_takeWhile_imp hc
  have hs : s = s.takeWhile isDigitChar ++ c1 :: s1 := by
    have he := (List.takeWhile_append_dropWhile (p := isDigitChar) (l := s)).symm
    rw [h1] at he
    exact he
  have hs1 : s1 = s1.takeWhile isDigitChar ++ c2 :: s2 := by
    have he := (List.takeWhile_append_dropWhile (p := isDigitChar) (l := s1)).symm
    rw [h2] at he
    exact he
  have hs2 : s2.takeWhile isDigitChar = s2 := by
    have he := List.takeWhile_append_dropWhile (p := isDigitChar) (l := s2)
    rw [hrest, List.append_nil] at he
    exact he
  have hd3 : ∀ c ∈ s2, isDigitChar c = true := by
    intro c hc
    rw [← hs2] at hc
    exact List.mem_takeWhile_imp hc
  rw [hs2] at hr3a hr3b
  have hne1 : s.takeWhile isDigitChar ≠ [] := by
    intro he; rw [he] at hr1a; simp at hr1a
  have hne2 : s1.takeWhile isDigitChar ≠ [] := by
    intro he; rw [he] at hr2a; simp at hr2a
  have hne3 : s2 ≠ [] := by
    intro he; rw [he] at hr3a; simp at hr3a
  have hpow2 : (10 : Nat) ^ 2 = 100 := by norm_num
  have hpow4 : (10 : Nat) ^ 4 = 10000 := by norm_num
  have hv1 : digitsToNat (s.takeWhile isDigitChar) < 100 := by
    have hb := digitsToNat_lt _ hd1
    have hle : (10 : Nat) ^ (s.takeWhile isDigitChar).length ≤ 10 ^ 2 :=
      Nat.pow_le_pow_right (by omega) hr1b
    omega
  have hv2 : digitsToNat (s1.takeWhile isDigitChar) < 100 := by
    have hb := digitsToNat_lt _ hd2
    have hle : (10 : Nat) ^ (s1.takeWhile isDigitChar).length ≤ 10 ^ 2 :=
      Nat.pow_le_pow_right (by omega) hr2b
    omega
  have hv3 : digitsToNat s2 < 10000 := by
    have hb := digitsToNat_lt _ hd3
    have hle : (10 : Nat) ^ s2.length ≤ 10 ^ 4 :=
      Nat.pow_le_pow_right (by omega) hr3b
    omega
  have hp1 : jsParseInt (s.takeWhile isDigitChar) =
      some (digitsToNat (s.takeWhile isDigitChar)) :=
    jsParseInt_digits _ hne1 hd1
  have hp2 : jsParseInt (s1.takeWhile isDigitChar) =
      some (digitsToNat (s1.takeWhile isDigitChar)) :=
    jsParseInt_digits _ hne2 hd2
  have hp3 : jsParseInt s2 = some (digitsToNat s2) := jsParseInt_digits _ hne3 hd3
  have hsl1 := digits_ne_char _ hd1 '/' (by decide)
  have hsl2 := digits_ne_char _ hd2 '/' (by decide)
  have hsl3 := digits_ne_char _ hd3 '/' (by decide)
  have hdh1 := digits_ne_char _ hd1 '-' (by decide)
  have hdh2 := digits_ne_char _ hd2 '-' (by decide)
  have hdh3 := digits_ne_char _ hd3 '-' (by decide)
  have hc1d : c1 = '/' ∨ c1 = '-' := by
    simpa [isSepChar, Bool.or_eq_true] using hc1
  have hc2d : c2 = '/' ∨ c2 = '-' := by
    simpa [isSepChar, Bool.or_eq_true] using hc2
  rcases hc1d with rfl | rfl
  · -- first separator is a slash, so the slash separator is chosen
    have hcont : s.contains '/' = true := by
      rw [hs]
      simp [List.contains, List.elem_iff]
    have hif : (if s.contains '/' then '/' else '-') = '/' := by rw [hcont]; rfl
    rcases hc2d with rfl | rfl
    · -- slash slash: three clean pieces
      have hdecomp : s = s.takeWhile isDigitChar ++ '/' ::
          (s1.takeWhile isDigitChar ++ '/' :: s2) :=
        hs.trans (congrArg (fun t => s.takeWhile isDigitChar ++ '/' :: t) hs1)
      have hsplit : splitOnChar '/' s =
          [s.takeWhile isDigitChar, s1.takeWhile isDigitChar, s2] := by
        conv_lhs => rw [hdecomp]
        exact splitOnChar_three '/' _ _ _ hsl1 hsl2 hsl3
      exact parseNumericDate_loose3 s _ _ _ '/' _ _ _ hif hsplit hp1 hp2 hp3
        hv1 hv2 hv3
    · -- slash hyphen: two pieces, the second swallowing the rest
      have hsy : ∀ c ∈ s1, (c == '/') = false := by
        intro c hc
        rw [hs1] at hc
        rcases List.mem_append.mp hc with hm | hm
        · exact hsl2 c hm
        · rcases List.mem_cons.mp hm with rfl | hm2
          · decide
          · exact hsl3 c hm2
      have hsplit : splitOnChar '/' s = [s.takeWhile isDigitChar, s1] := by
        conv_lhs => rw [hs]
        exact splitOnChar_two '/' _ _ hsl1 hsy
      have hpm : jsParseInt s1 = some (digitsToNat (s1.takeWhile isDigitChar)) :=
        jsParseInt_of_takeWhile s1 _ rfl hne2
      exact parseNumericDate_loose2 s _ _ '/' _ _ hif hsplit hp1 hpm hv1 (by omega)
  · rcases hc2d with rfl | rfl
    · -- hyphen slash: two pieces, the first swallowing the hyphen
      have hcont : s.contains '/' = true := by
        rw [hs, hs1]
        simp [List.contains, List.elem_iff]
      have hif : (if s.contains '/' then '/' else '-') = '/' := by rw [hcont]; rfl
      have hdecomp : s = (s.takeWhile isDigitChar ++ '-' :: s1.takeWhile isDigitChar) ++
          '/' :: s2 :=
        (hs.trans (congrArg (fun t => s.takeWhile isDigitChar ++ '-' :: t) hs1)).trans
          (by simp)
      have hsx : ∀ c ∈ s.takeWhile isDigitChar ++ '-' :: s1.takeWhile isDigitChar,
          (c == '/') = false := by
        intro c hc
        rcases List.mem_append.mp hc with hm | hm
        · exact hsl1 c hm
        · rcases List.mem_cons.mp hm with rfl | hm2
          · decide
          · exact hsl2 c hm2
      have hsplit : splitOnChar '/' s =
          [s.takeWhile isDigitChar ++ '-' :: s1.takeWhile isDigitChar, s2] := by
        conv_lhs => rw [hdecomp]
        exact splitOnChar_two '/' _ _ hsx hsl3
      have htw : (s.takeWhile isDigitChar ++ '-' :: s1.takeWhile isDigitChar).takeWhile
          isDigitChar = s.takeWhile isDigitChar :=
        (takeWhile_append_stop isDigitChar _ '-' _ hd1 (by decide)).1
      have hpm : jsParseInt (s.takeWhile isDigitChar ++ '-' :: s1.takeWhile isDigitChar) =
          some (digitsToNat (s.takeWhile isDigitChar)) :=
        jsParseInt_of_takeWhile _ _ htw hne1
      exact parseNumericDate_loose2 s _ _ '/' _ _ hif hsplit hpm hp3 hv1 hv3
    · -- hyphen hyphen: no slash anywhere, three clean pieces
      have hcont : s.contains '/' = false := by
        rw [← Bool.not_eq_true]
        simp only [List.contains, List.elem_iff]
        intro hm
        rw [hs, hs1] at hm
        rcases List.mem_append.mp hm with hm2 | hm2
        · have := hsl1 _ hm2; simp at this
        · rcases List.mem_cons.mp hm2 with he | hm3
          · exact absurd he (by decide)
          · rcases List.mem_append.mp hm3 with hm4 | hm4
            · have := hsl2 _ hm4; simp at this
            · rcases List.mem_cons.mp hm4 with he | hm5
              · exact absurd he (by decide)
              · have := hsl3 _ hm5; simp at this
      have hif : (if s.contains '/' then '/' else '-') = '-' := by rw [hcont]; rfl
      have hdecomp : s = s.takeWhile isDigitChar ++ '-' ::
          (s1.takeWhile isDigitChar ++ '-' :: s2) :=
        hs.trans (congrArg (fun t => s.takeWhile isDigitChar ++ '-' :: t) hs1)
      have hsplit : splitOnChar '-' s =
          [s.takeWhile isDigitChar, s1.takeWhile isDigitChar, s2] := by
        conv_lhs => rw [hdecomp]
        exact splitOnChar_three '-' _ _ _ hdh1 hdh2 hdh3
      exact parseNumericDate_loose3 s _ _ _ '-' _ _ _ hif hsplit hp1 hp2 hp3
        hv1 hv2 hv3

/-- Characters of a bounded take from a digit run are digits. -/
theorem take_digits (s : Str) (k : Nat) (hk : k ≤ (s.takeWhile isDigitChar).length) :
    ∀ c ∈ s.take k, isDigitChar c = true := by
  obtain ⟨t, ht⟩ := List.takeWhile_prefix (p := isDigitChar) (l := s)
  intro c hc
  rw [← ht, List.take_append_of_le_length hk] at hc
  exact List.mem_takeWhile_imp (List.take_subset k _ hc)

/-- Shape of the first-group candidates of the textual date form: each is
    the literal 1er, the literal premier, or a one-or-two digit run. -/
theorem group1Candidates_spec (s : Str) (gr : Str × Str) (h : gr ∈ group1Candidates s) :
    gr.1.map jsToLower = str "1er" ∨ gr.1.map jsToLower = str "premier" ∨
    ((∀ c ∈ gr.1, isDigitChar c = true) ∧ 1 ≤ gr.1.length ∧ gr.1.length ≤ 2) := by
  have hlen : ∀ k : Nat, k ≤ (s.takeWhile isDigitChar).length → (s.take k).length = k := by
    intro k hk
    rw [List.length_take]
    have := List.Sublist.length_le (List.takeWhile_sublist (p := isDigitChar) (l := s))
    omega
  simp only [group1Candidates] at h
  rcases List.mem_append.mp h with hm | hm
  · rcases List.mem_append.mp hm with hm2 | hm2
    · split_ifs at hm2 with hci
      · rw [List.mem_singleton] at hm2
        subst hm2
        left
        have := startsWithCI_map_toLower (str "1er") s hci
        rw [show (str "1er").length = 3 from rfl] at this
        exact this
      · simp at hm2
    · split_ifs at hm2 with hci
      · rw [List.mem_singleton] at hm2
        subst hm2
        right; left
        have := startsWithCI_map_toLower (str "premier") s hci
        rw [show (str "premier").length = 7 from rfl] at this
        exact this
      · simp at hm2
  · right; right
    split_ifs at hm with h2 h1
    · rcases List.mem_cons.mp hm with rfl | hm2
      · exact ⟨take_digits s 2 h2, by rw [hlen 2 h2]; omega, by rw [hlen 2 h2]⟩
      · rw [List.mem_singleton] at hm2
        subst hm2
        exact ⟨take_digits s 1 (by omega), by rw [hlen 1 (by omega)], by rw [hlen 1 (by omega)]; omega⟩
    · rw [List.mem_singleton] at hm
      subst hm
      exact ⟨take_digits s 1 (by omega), by rw [hlen 1 (by omega)], by rw [hlen 1 (by omega)]; omega⟩
    · simp at hm

/-- Group projections of a successful textual-tail match: the first group
    is passed through and the year group is a four-digit run. -/
theorem textualTail_spec (g1 rest : Str) (res : Str × Str × Str × Str)
    (h : textualTail g1 rest = some res) :
    res.2.1 = g1 ∧ (∀ c ∈ res.2.2.2, isDigitChar c = true) ∧ res.2.2.2.length = 4 := by
  simp only [textualTail] at h
  split_ifs at h with h1 h2 h3 h4
  all_goals try cases h
  refine ⟨rfl, ?_, h4.1⟩
  intro c hc
  exact List.mem_takeWhile_imp hc

/-- Group facts of a successful textual match at a position. -/
theorem matchTextualAt_spec (prev : Bool) (s : Str) (res : Str × Str × Str × Str)
    (h : matchTextualAt prev s = some res) :
    (∀ c ∈ res.2.2.2, isDigitChar c = true) ∧ res.2.2.2.length = 4 ∧
    (res.2.1.map jsToLower = str "1er" ∨ res.2.1.map jsToLower = str "premier" ∨
      ((∀ c ∈ res.2.1, isDigitChar c = true) ∧ 1 ≤ res.2.1.length ∧ res.2.1.length ≤ 2)) := by
  unfold matchTextualAt at h
  split_ifs at h
  obtain ⟨gr, hgrmem, hf⟩ := firstSome_eq_some _ _ _ h
  obtain ⟨hg1, hds, hlen⟩ := textualTail_spec gr.1 gr.2 res hf
  refine ⟨hds, hlen, ?_⟩
  rw [hg1]
  exact group1Candidates_spec s gr hgrmem

/-- A successful textual scan comes from a successful match at some
    position. -/
theorem scanTextual_from_match :
    ∀ (s : Str) (prev : Bool) (res : Str × Str × Str × Str),
      scanTextual prev s = some res → ∃ prev2 s2, matchTextualAt prev2 s2 = some res := by
  intro s
  induction s with
  | nil => intro prev res h; simp [scanTextual] at h
  | cons c rest ih =>
    intro prev res h
    cases hm : matchTextualAt prev (c :: rest) with
    | some g =>
      simp only [scanTextual, hm] at h
      exact ⟨prev, c :: rest, by rw [hm, h]⟩
    | none =>
      simp only [scanTextual, hm] at h
      exact ih (isWordChar c) res h

/-- A numeric value of the month lookup is an own table entry, so it lies
    between one and twelve; the only other possible value is the
    inherited constructor function. -/
theorem frMonthsLookup_range (w : Str) (mo : Nat)
    (h : frMonthsLookup w = some (FrMonthValue.num mo)) :
    1 ≤ mo ∧ mo ≤ 12 := by
  unfold frMonthsLookup at h
  cases hf : frMonthsTable.find? (fun p => p.1 == w) with
  | none =>
    rw [hf] at h
    simp only [] at h
    split_ifs at h
    all_goals simp at h
  | some p =>
    rw [hf] at h
    simp at h
    have hm := List.mem_of_find?_eq_some hf
    simp only [frMonthsTable, List.mem_cons, List.not_mem_nil, or_false] at hm
    rcases hm with rfl | rfl | rfl | rfl | rfl | rfl | rfl | rfl | rfl | rfl | rfl |
      rfl | rfl | rfl | rfl <;> simp at h <;> omega

/-- Shape of the textual-branch output of the resolver, whether the month
    value is an own table number or the inherited constructor function. -/
theorem textual_output_loose (g1 yds : Str) (mv : FrMonthValue)
    (hyd : ∀ c ∈ yds, isDigitChar c = true) (hy4 : yds.length = 4)
    (hg1 : g1.map jsToLower = str "1er" ∨ g1.map jsToLower = str "premier" ∨
      ((∀ c ∈ g1, isDigitChar c = true) ∧ 1 ≤ g1.length ∧ g1.length ≤ 2))
    (hmv : ∀ mo : Nat, mv = FrMonthValue.num mo → 1 ≤ mo ∧ mo ≤ 12) :
    looseDateShape (slotStr (some (jsParseInt yds)) ++ [ '-' ] ++ frMonthPad2 mv ++
      [ '-' ] ++ slotPad2 (some (jsParseInt
        (if g1.map jsToLower = str "1er" ∨ g1.map jsToLower = str "premier" then str "1"
         else g1.map jsToLower)))) = true := by
  have hyne : yds ≠ [] := by intro he; rw [he] at hy4; simp at hy4
  have hpy : jsParseInt yds = some (digitsToNat yds) := jsParseInt_digits _ hyne hyd
  have hyv : digitsToNat yds < 10000 := by
    have hb := digitsToNat_lt _ hyd
    rw [hy4] at hb
    have : (10 : Nat) ^ 4 = 10000 := by norm_num
    omega
  obtain ⟨hya, hyb, hyc⟩ := natToStr_spec _ hyv
  have hd : ∃ dv : Nat, jsParseInt
      (if g1.map jsToLower = str "1er" ∨ g1.map jsToLower = str "premier" then str "1"
       else g1.map jsToLower) = some dv ∧ dv < 100 := by
    rcases hg1 with hcase | hcase | hcase
    · rw [if_pos (Or.inl hcase)]
      exact ⟨1, by decide, by omega⟩
    · rw [if_pos (Or.inr hcase)]
      exact ⟨1, by decide, by omega⟩
    · obtain ⟨hdig, hl1, hl2⟩ := hcase
      have hmapid : g1.map jsToLower = g1 := by
        rw [List.map_congr_left (fun c hc => jsToLower_digit c (hdig c hc))]
        exact List.map_id g1
      have hcond : ¬ (g1.map jsToLower = str "1er" ∨ g1.map jsToLower = str "premier") := by
        rw [hmapid]
        rintro (he | he)
        · have : 'e' ∈ g1 := by rw [he]; decide
          exact absurd (hdig _ this) (by decide)
        · have : 'p' ∈ g1 := by rw [he]; decide
          exact absurd (hdig _ this) (by decide)
      rw [if_neg hcond, hmapid]
      refine ⟨digitsToNat g1, jsParseInt_digits _ ?_ hdig, ?_⟩
      · intro he; rw [he] at hl1; simp at hl1
      · have hb := digitsToNat_lt _ hdig
        have hle : (10 : Nat) ^ g1.length ≤ 10 ^ 2 := Nat.pow_le_pow_right (by omega) hl2
        have : (10 : Nat) ^ 2 = 100 := by norm_num
        omega
  obtain ⟨dv, hpd, hdv⟩ := hd
  rw [hpy, hpd]
  simp only [slotStr, slotPad2]
  obtain ⟨hda, hdb⟩ := pad2_spec2 dv hdv
  cases mv with
  | num mo =>
    obtain ⟨hma, hmb⟩ := pad2_spec2 mo (by have := hmv mo rfl; omega)
    simp only [frMonthPad2]
    exact loose_of_parts _ _ _ (Or.inl ⟨⟨hyb, hyc⟩, hya⟩)
      (Or.inl ⟨hma, by omega, by omega⟩) hda hdb
  | protoConstructor =>
    simp only [frMonthPad2]
    exact loose_of_parts _ _ _ (Or.inl ⟨⟨hyb, hyc⟩, hya⟩) (Or.inr rfl) hda hdb

/-- Claim C4 as amended.  The resolver is a total function: for every
    input it returns null or a string, and null is the normal no-match
    outcome.  A returned string is hyphen-separated with a two-digit day
    part and a month part that is a two-to-four-digit number — or, when
    the matched month word is constructor, the key the lookup object
    inherits from the object prototype, the source text of the Object
    constructor function — while its year part is an unpadded decimal
    number of up to four digits rather than always a four-digit ISO
    year, and on a mixed-separator numeric token the year part
    degenerates to the literal text undefined. -/
theorem c4_amended_total_shape :
    ∀ fr : Str, parseFrenchDatePhrase fr = none ∨
      ∃ r, parseFrenchDatePhrase fr = some r ∧ looseDateShape r = true := by
  intro fr
  by_cases hne : fr = []
  · left; simp [parseFrenchDatePhrase, hne]
  · by_cases hcan : isCanonicalYmd (jsTrim (replaceLeGo (normKeepAccents fr))) = true
    · right
      exact ⟨jsTrim (replaceLeGo (normKeepAccents fr)),
             by simp [parseFrenchDatePhrase, hne, hcan],
             canonical_loose _ hcan⟩
    · by_cases hnum : isNumericDateToken (jsTrim (replaceLeGo (normKeepAccents fr))) = true
      · right
        exact ⟨parseNumericDate (jsTrim (replaceLeGo (normKeepAccents fr))),
               by simp [parseFrenchDatePhrase, hne, hcan, hnum],
               parseNumericDate_loose _ hnum⟩
      · cases hscan : scanTextual false (jsTrim (replaceLeGo (normKeepAccents fr))) with
        | none => left; simp [parseFrenchDatePhrase, hne, hcan, hnum, hscan]
        | some quad =>
          obtain ⟨m0, g1, mon, yds⟩ := quad
          cases hmo : frMonthsLookup (mon.map jsToLower) with
          | none => left; simp [parseFrenchDatePhrase, hne, hcan, hnum, hscan, hmo]
          | some mv =>
            right
            obtain ⟨prev2, s2, hmatch⟩ := scanTextual_from_match _ _ _ hscan
            obtain ⟨hyd, hy4, hg1⟩ := matchTextualAt_spec prev2 s2 _ hmatch
            refine ⟨slotStr (some (jsParseInt yds)) ++ [ '-' ] ++ frMonthPad2 mv ++
              [ '-' ] ++ slotPad2 (some (jsParseInt
                (if g1.map jsToLower = str "1er" ∨ g1.map jsToLower = str "premier"
                 then str "1" else g1.map jsToLower))), ?_, ?_⟩
            · simp [parseFrenchDatePhrase, hne, hcan, hnum, hscan, hmo]
            · exact textual_output_loose g1 yds mv hyd hy4 hg1
                (fun mo hmoeq => frMonthsLookup_range _ mo (hmoeq ▸ hmo))

/-- Witness for claim C4 as amended: concrete resolver runs through the
    quantified theorem. -/
theorem c4_witness :
    (parseFrenchDatePhrase (str "aucune date ici") = none ∨
      ∃ r, parseFrenchDatePhrase (str "aucune date ici") = some r ∧
        looseDateShape r = true) ∧
    (parseFrenchDatePhrase (str "15 mars 2025") = none ∨
      ∃ r, parseFrenchDatePhrase (str "15 mars 2025") = some r ∧
        looseDateShape r = true) ∧
    (parseFrenchDatePhrase (str "15 constructor 2025") = none ∨
      ∃ r, parseFrenchDatePhrase (str "15 constructor 2025") = some r ∧
        looseDateShape r = true) :=
  ⟨c4_amended_total_shape (str "aucune date ici"),
   c4_amended_total_shape (str "15 mars 2025"),
   c4_amended_total_shape (str "15 constructor 2025")⟩
